import Mathlib

/-!
Verification development for a small arithmetic-expression compiler front end
(a lexer and a recursive-descent parser written in Rust, `src/main.rs`).

The Rust code is shallowly embedded:
  * `Token`, `SyntaxError`, `ASTNode` mirror the Rust enums/structs.
  * `tokenizer` mirrors `fn tokenizer`.  The Rust code calls
    `number.parse::<i64>().unwrap()`, which panics (aborts the process) when
    the digit run does not fit in an `i64`; this is modelled by the
    `TokResult.panicked` outcome.  Successful lexing and the lexing error are
    `TokResult.ok` / `TokResult.err`.
  * The parser methods `peek`, `advance`, `parse_factor`, `parse_term`,
    `parse_expression`, `parse` are embedded as functions over the token list
    plus an explicit cursor (the Rust `self.current`).  The two `while let`
    loops become the auxiliary functions `parse_term_loop` and
    `parse_expression_loop`.  The mutual recursion is made structural by an
    explicit fuel parameter; `parser_enough_fuel` proves that the fuel
    `5 * tokens.length + 5` used by the top-level `Parser.parse` is always
    sufficient, so the embedding computes exactly what the Rust code computes.
  * The two `.expect(...)` calls on `advance` become the `PRes.panicked`
    outcome, so that "the parser never panics" is a provable statement rather
    than being true by construction.
  * The `println!` tracing calls are incidental instrumentation with no effect
    on results and are not modelled.
-/

/-- Rust `enum Token` from `src/main.rs`.  The `i64` payload of `Number`
is modelled as `Int`; the lexer only ever produces values in `[0, 2^63)`,
and out-of-range digit runs panic before a token is made (see `tokenizer`). -/
inductive Token where
  | Number : Int → Token
  | Plus : Token
  | Dash : Token
  | Star : Token
  | Slash : Token
  | LeftParen : Token
  | RightParen : Token
  | EOF : Token
deriving DecidableEq, Repr

/-- Rust `struct SyntaxError { message: String }`. -/
structure SyntaxError where
  message : String
deriving DecidableEq, Repr

/-- Outcome of `fn tokenizer`: `Ok(Vec<Token>)`, `Err(SyntaxError)`, or a
process abort caused by `number.parse::<i64>().unwrap()` overflowing. -/
inductive TokResult where
  | ok : List Token → TokResult
  | err : SyntaxError → TokResult
  | panicked : TokResult
deriving DecidableEq, Repr

/-- Rust `char::is_whitespace`: the Unicode `White_Space` property,
written out as the explicit list of code points. -/
def rustIsWhitespace (c : Char) : Bool :=
  let n := c.toNat
  (9 ≤ n && n ≤ 13) || n == 32 || n == 133 || n == 160 || n == 5760 ||
    (8192 ≤ n && n ≤ 8202) || n == 8232 || n == 8233 || n == 8239 ||
    n == 8287 || n == 12288

/-- Rust `char::is_ascii_digit` (also the range pattern `'0'..='9'`). -/
def isAsciiDigit (c : Char) : Bool :=
  48 ≤ c.toNat && c.toNat ≤ 57

/-- Base-10 value of a digit string, as computed by a successful
`str::parse::<i64>` on a run of ASCII digits. -/
def natOfDigits (l : List Char) : Nat :=
  l.foldl (fun a c => a * 10 + (c.toNat - 48)) 0

/-- `i64::MAX`; `parse::<i64>` succeeds on a (sign-free) digit run exactly
when its value is at most this bound. -/
def i64Max : Nat := 9223372036854775807

/-- `tokens.push(t)` followed by the rest of the scan: prepend `t` to a
successful remainder, propagate a failure unchanged (Rust returns the error
immediately and the partially filled vector is dropped). -/
def withToken (t : Token) : TokResult → TokResult
  | .ok l => .ok (t :: l)
  | r => r

/-- The scanning loop of `fn tokenizer`, one step per iteration of the Rust
`while let Some(&ch) = chars.peek()` loop.  The digit branch consumes the
maximal digit run (the inner `while` loop), parses it, and panics if the
value does not fit in an `i64` (`unwrap` on `parse::<i64>`).  Reaching the
end of input pushes the final `EOF` token. -/
def tokenizeChars : List Char → TokResult
  | [] => .ok [Token.EOF]
  | ch :: cs =>
    if rustIsWhitespace ch then tokenizeChars cs
    else if ch = '(' then withToken Token.LeftParen (tokenizeChars cs)
    else if ch = ')' then withToken Token.RightParen (tokenizeChars cs)
    else if ch = '+' then withToken Token.Plus (tokenizeChars cs)
    else if ch = '-' then withToken Token.Dash (tokenizeChars cs)
    else if ch = '*' then withToken Token.Star (tokenizeChars cs)
    else if ch = '/' then withToken Token.Slash (tokenizeChars cs)
    else if _h : isAsciiDigit ch then
      let digits := List.takeWhile isAsciiDigit (ch :: cs)
      let rest := List.dropWhile isAsciiDigit (ch :: cs)
      if natOfDigits digits ≤ i64Max then
        withToken (Token.Number ((natOfDigits digits : Nat) : Int)) (tokenizeChars rest)
      else .panicked
    else .err (SyntaxError.mk ("unrecognized character " ++ String.singleton ch))
termination_by l => l.length
decreasing_by
  all_goals simp_all
  calc (List.dropWhile isAsciiDigit cs).length
      ≤ cs.length := (List.dropWhile_sublist isAsciiDigit).length_le
    _ < cs.length + 1 := Nat.lt_succ_self _

/-- Rust `fn tokenizer(input: String)`. -/
def tokenizer (input : String) : TokResult :=
  tokenizeChars input.toList

/-- Rust `enum ASTNode`.  As in the source, the operator of a `BinaryOp`
is a full `Token`; the invariant that it is one of the four arithmetic
operators is proved, not built in. -/
inductive ASTNode where
  | Number : Int → ASTNode
  | BinaryOp : Token → ASTNode → ASTNode → ASTNode
deriving DecidableEq, Repr

/-- The `derive(Debug)` rendering of a `Token`, used in error messages. -/
def tokenDebug : Token → String
  | .Number v => "Number(" ++ toString v ++ ")"
  | .Plus => "Plus"
  | .Dash => "Dash"
  | .Star => "Star"
  | .Slash => "Slash"
  | .LeftParen => "LeftParen"
  | .RightParen => "RightParen"
  | .EOF => "EOF"

/-- The `derive(Debug)` rendering of an `Option<&Token>`. -/
def optionTokenDebug : Option Token → String
  | none => "None"
  | some t => "Some(" ++ tokenDebug t ++ ")"

/-- The ASCII apostrophe, as it occurs in the Rust format string of the
missing-closing-parenthesis error message. -/
def quoteMark : String := String.singleton (Char.ofNat 39)

/-- Outcome of one parser method: `Ok(node)` or `Err(SyntaxError)` together
with the cursor (`self.current`) left behind in the parser struct, a panic
from an `.expect(...)` call, or exhaustion of the bookkeeping fuel of the
embedding (`parser_enough_fuel` shows the fuel used by `Parser.parse` never
runs out). -/
inductive PRes where
  | ok : ASTNode → Nat → PRes
  | err : SyntaxError → Nat → PRes
  | panicked : String → PRes
  | outOfFuel : PRes
deriving DecidableEq, Repr

/-- The cursor recorded in a parser outcome, when there is one. -/
def PRes.endCursor : PRes → Option Nat
  | .ok _ n => some n
  | .err _ n => some n
  | _ => none

namespace Parser

/-- Rust `Parser::peek`: `self.tokens.get(self.current)`, no cursor change. -/
def peek (ts : List Token) (current : Nat) : Option Token :=
  ts.get? current

/-- Rust `Parser::advance`: reads `self.tokens.get(self.current).cloned()`
and increments `self.current` unconditionally. -/
def advance (ts : List Token) (current : Nat) : Option Token × Nat :=
  (ts.get? current, current + 1)

mutual

/-- Rust `Parser::parse_factor`. -/
def parse_factor : Nat → List Token → Nat → PRes
  | 0, _, _ => .outOfFuel
  | fuel + 1, ts, c =>
    match advance ts c with
    | (some (Token.Number value), c1) => .ok (ASTNode.Number value) c1
    | (some Token.LeftParen, c1) =>
      match parse_expression fuel ts c1 with
      | .ok node c2 =>
        match peek ts c2 with
        | some Token.RightParen => .ok node (c2 + 1)
        | o =>
          .err (SyntaxError.mk ("Expected " ++ quoteMark ++ ")" ++ quoteMark ++
            ", but found " ++ optionTokenDebug o)) c2
      | r => r
    | (some t, c1) => .err (SyntaxError.mk ("Unexpected token: " ++ tokenDebug t)) c1
    | (none, c1) => .err (SyntaxError.mk ("Unexpected end of input")) c1

/-- Rust `Parser::parse_term`: one factor, then the `* /` folding loop. -/
def parse_term : Nat → List Token → Nat → PRes
  | 0, _, _ => .outOfFuel
  | fuel + 1, ts, c =>
    match parse_factor fuel ts c with
    | .ok node c1 => parse_term_loop fuel ts node c1
    | r => r

/-- The `while let Some(token) = self.peek()` loop of `parse_term`:
while the lookahead is `Star` or `Slash`, consume the operator (the
`.expect(...)` panics if `advance` yields nothing), parse another factor and
fold it into a left-associative `BinaryOp`. -/
def parse_term_loop : Nat → List Token → ASTNode → Nat → PRes
  | 0, _, _, _ => .outOfFuel
  | fuel + 1, ts, node, c =>
    match peek ts c with
    | some Token.Star | some Token.Slash =>
      match advance ts c with
      | (some op, c1) =>
        match parse_factor fuel ts c1 with
        | .ok right c2 => parse_term_loop fuel ts (ASTNode.BinaryOp op node right) c2
        | r => r
      | (none, _) => .panicked ("Expected operator but found unexpected EOF")
    | _ => .ok node c

/-- Rust `Parser::parse_expression`: one term, then the `+ -` folding loop. -/
def parse_expression : Nat → List Token → Nat → PRes
  | 0, _, _ => .outOfFuel
  | fuel + 1, ts, c =>
    match parse_term fuel ts c with
    | .ok node c1 => parse_expression_loop fuel ts node c1
    | r => r

/-- The `while let Some(token) = self.peek()` loop of `parse_expression`. -/
def parse_expression_loop : Nat → List Token → ASTNode → Nat → PRes
  | 0, _, _, _ => .outOfFuel
  | fuel + 1, ts, node, c =>
    match peek ts c with
    | some Token.Plus | some Token.Dash =>
      match advance ts c with
      | (some op, c1) =>
        match parse_term fuel ts c1 with
        | .ok right c2 => parse_expression_loop fuel ts (ASTNode.BinaryOp op node right) c2
        | r => r
      | (none, _) => .panicked ("Expected operator but found unexpected EOF")
    | _ => .ok node c

end

/-- Rust `Parser::parse`, run on a fresh `Parser` (`current = 0`): it calls
`parse_expression` exactly once and returns its result, with no check that
the cursor reached the `EOF` token.  The fuel `5 * ts.length + 5` is always
sufficient (`parser_enough_fuel`). -/
def parse (ts : List Token) : PRes :=
  parse_expression (5 * ts.length + 5) ts 0

end Parser

/-- The characters the lexer recognizes: whitespace, the six single-character
tokens, and ASCII digits.  Any other character hits the catch-all arm of the
`match` in `fn tokenizer`. -/
def recognizedChar (c : Char) : Bool :=
  rustIsWhitespace c || c = '(' || c = ')' || c = '+' || c = '-' ||
    c = '*' || c = '/' || isAsciiDigit c

/-- Every operator stored in a `BinaryOp` node is one of the four arithmetic
tokens (the invariant of spec §3). -/
def opsValid : ASTNode → Bool
  | .Number _ => true
  | .BinaryOp op l r =>
    (op = Token.Plus || op = Token.Dash || op = Token.Star || op = Token.Slash) &&
      opsValid l && opsValid r

/-- C1: for the input "2 + 3 * 4", the tokenizer produces
`[Number 2, Plus, Number 3, Star, Number 4, EOF]` and `Parser::parse` returns
the AST `BinaryOp(Plus, Number 2, BinaryOp(Star, Number 3, Number 4))`:
multiplication binds tighter than addition. -/
theorem C1_operator_precedence :
    tokenizer ("2 + 3 * 4") =
      TokResult.ok [Token.Number 2, Token.Plus, Token.Number 3, Token.Star,
        Token.Number 4, Token.EOF] ∧
    Parser.parse [Token.Number 2, Token.Plus, Token.Number 3, Token.Star,
        Token.Number 4, Token.EOF] =
      PRes.ok (ASTNode.BinaryOp Token.Plus (ASTNode.Number 2)
        (ASTNode.BinaryOp Token.Star (ASTNode.Number 3) (ASTNode.Number 4))) 5 := by
  constructor
  · simp +decide [tokenizer, tokenizeChars, withToken]
  · simp +decide [Parser.parse, Parser.parse_expression, Parser.parse_term,
      Parser.parse_factor, Parser.parse_term_loop, Parser.parse_expression_loop,
      Parser.peek, Parser.advance]

/-- C2: for the input "8 - 3 - 2", parsing returns the left-grouped tree
`BinaryOp(Dash, BinaryOp(Dash, Number 8, Number 3), Number 2)`, which is a
different tree from the right-grouped `BinaryOp(Dash, Number 8,
BinaryOp(Dash, Number 3, Number 2))`. -/
theorem C2_left_associativity :
    tokenizer ("8 - 3 - 2") =
      TokResult.ok [Token.Number 8, Token.Dash, Token.Number 3, Token.Dash,
        Token.Number 2, Token.EOF] ∧
    Parser.parse [Token.Number 8, Token.Dash, Token.Number 3, Token.Dash,
        Token.Number 2, Token.EOF] =
      PRes.ok (ASTNode.BinaryOp Token.Dash
        (ASTNode.BinaryOp Token.Dash (ASTNode.Number 8) (ASTNode.Number 3))
        (ASTNode.Number 2)) 5 ∧
    ASTNode.BinaryOp Token.Dash
        (ASTNode.BinaryOp Token.Dash (ASTNode.Number 8) (ASTNode.Number 3))
        (ASTNode.Number 2) ≠
      ASTNode.BinaryOp Token.Dash (ASTNode.Number 8)
        (ASTNode.BinaryOp Token.Dash (ASTNode.Number 3) (ASTNode.Number 2)) := by
  refine ⟨?_, ?_, by decide⟩
  · simp +decide [tokenizer, tokenizeChars, withToken]
  · simp +decide [Parser.parse, Parser.parse_expression, Parser.parse_term,
      Parser.parse_factor, Parser.parse_term_loop, Parser.parse_expression_loop,
      Parser.peek, Parser.advance]

/-- C3 (code bug): on the 19-digit input whose value is `2^63`, one more than
`i64::MAX`, the tokenizer does not return a lexing error: the
`number.parse::<i64>().unwrap()` call panics and aborts the program. -/
theorem C3_overflow_aborts :
    tokenizer ("9223372036854775808") = TokResult.panicked := by
  simp +decide [tokenizer, tokenizeChars, withToken]

/-- C5 (counterexample): the input "9223372036854775808a" contains the
unrecognized character `a`, yet the tokenizer does not return a
`SyntaxError` naming it: the overflowing digit run scanned first makes the
program panic. -/
theorem C5_counterexample_panic_preempts_error :
    tokenizer ("9223372036854775808a") = TokResult.panicked := by
  simp +decide [tokenizer, tokenizeChars, withToken]

/-- C8 (counterexample): running `parse` on the empty token sequence (no
`EOF` terminator) leaves the cursor at 1, one position past the end of the
sequence: the failed `advance` still increments `self.current`. -/
theorem C8_counterexample_cursor_past_end :
    Parser.parse ([] : List Token) =
      PRes.err (SyntaxError.mk ("Unexpected end of input")) 1 ∧
    ([] : List Token).length < 1 := by
  refine ⟨?_, by decide⟩
  simp +decide [Parser.parse, Parser.parse_expression, Parser.parse_term,
    Parser.parse_factor, Parser.parse_term_loop, Parser.parse_expression_loop,
    Parser.peek, Parser.advance]

/-- Each parser method, on any token sequence, any cursor and any fuel,
leaves the cursor at or beyond where it started; `parse_factor`,
`parse_term` and `parse_expression` consume at least one token whenever they
report a cursor at all. -/
theorem parser_cursors (fuel : Nat) : ∀ (ts : List Token) (c : Nat),
    (∀ n, (Parser.parse_factor fuel ts c).endCursor = some n → c + 1 ≤ n) ∧
    (∀ n, (Parser.parse_term fuel ts c).endCursor = some n → c + 1 ≤ n) ∧
    (∀ n, (Parser.parse_expression fuel ts c).endCursor = some n → c + 1 ≤ n) ∧
    (∀ node n, (Parser.parse_term_loop fuel ts node c).endCursor = some n → c ≤ n) ∧
    (∀ node n, (Parser.parse_expression_loop fuel ts node c).endCursor = some n → c ≤ n) := by
  induction fuel with
  | zero =>
    intro ts c
    refine ⟨?_, ?_, ?_, ?_, ?_⟩ <;> intros <;>
      simp_all [Parser.parse_factor, Parser.parse_term, Parser.parse_expression,
        Parser.parse_term_loop, Parser.parse_expression_loop, PRes.endCursor]
  | succ f ih =>
    intro ts c
    refine ⟨?_, ?_, ?_, ?_, ?_⟩
    · -- parse_factor
      intro n h
      simp only [Parser.parse_factor, Parser.advance] at h
      split at h
      next value c1 heq =>
        simp only [Prod.mk.injEq] at heq
        simp only [PRes.endCursor, Option.some.injEq] at h
        omega
      next c1 heq =>
        simp only [Prod.mk.injEq] at heq
        obtain ⟨hget, hc1⟩ := heq
        subst hc1
        split at h
        next node c2 hexp =>
          have h2 := ((ih ts (c + 1)).2.2.1) c2 (by rw [hexp]; rfl)
          split at h
          · simp only [PRes.endCursor, Option.some.injEq] at h
            omega
          · simp only [PRes.endCursor, Option.some.injEq] at h
            omega
        next r hnm =>
          have h2 := ((ih ts (c + 1)).2.2.1) n h
          omega
      next t c1 hne1 hne2 heq =>
        simp only [Prod.mk.injEq] at heq
        simp only [PRes.endCursor, Option.some.injEq] at h
        omega
      next c1 heq =>
        simp only [Prod.mk.injEq] at heq
        simp only [PRes.endCursor, Option.some.injEq] at h
        omega
    · -- parse_term
      intro n h
      simp only [Parser.parse_term] at h
      split at h
      next node c1 hfac =>
        have h1 := ((ih ts c).1) c1 (by rw [hfac]; rfl)
        have h2 := ((ih ts c1).2.2.2.1) node n h
        omega
      next r hnm =>
        have h1 := ((ih ts c).1) n h
        omega
    · -- parse_expression
      intro n h
      simp only [Parser.parse_expression] at h
      split at h
      next node c1 hterm =>
        have h1 := ((ih ts c).2.1) c1 (by rw [hterm]; rfl)
        have h2 := ((ih ts c1).2.2.2.2) node n h
        omega
      next r hnm =>
        have h1 := ((ih ts c).2.1) n h
        omega
    · -- parse_term_loop
      intro node n h
      simp only [Parser.parse_term_loop, Parser.peek, Parser.advance] at h
      split at h
      next hpeek =>
        split at h
        next op c1 hget =>
          simp only [Prod.mk.injEq] at hget
          obtain ⟨hg, hc1⟩ := hget
          subst hc1
          split at h
          next right c2 hfac =>
            have h1 := ((ih ts (c + 1)).1) c2 (by rw [hfac]; rfl)
            have h2 := ((ih ts c2).2.2.2.1) _ n h
            omega
          next r hnm =>
            have h1 := ((ih ts (c + 1)).1) n h
            omega
        next c1 hget =>
          simp only [PRes.endCursor] at h
          exact Option.noConfusion h
      next hpeek =>
        split at h
        next op c1 hget =>
          simp only [Prod.mk.injEq] at hget
          obtain ⟨hg, hc1⟩ := hget
          subst hc1
          split at h
          next right c2 hfac =>
            have h1 := ((ih ts (c + 1)).1) c2 (by rw [hfac]; rfl)
            have h2 := ((ih ts c2).2.2.2.1) _ n h
            omega
          next r hnm =>
            have h1 := ((ih ts (c + 1)).1) n h
            omega
        next c1 hget =>
          simp only [PRes.endCursor] at h
          exact Option.noConfusion h
      next hne1 hne2 =>
        simp only [PRes.endCursor, Option.some.injEq] at h
        omega
    · -- parse_expression_loop
      intro node n h
      simp only [Parser.parse_expression_loop, Parser.peek, Parser.advance] at h
      split at h
      next hpeek =>
        split at h
        next op c1 hget =>
          simp only [Prod.mk.injEq] at hget
          obtain ⟨hg, hc1⟩ := hget
          subst hc1
          split at h
          next right c2 hterm =>
            have h1 := ((ih ts (c + 1)).2.1) c2 (by rw [hterm]; rfl)
            have h2 := ((ih ts c2).2.2.2.2) _ n h
            omega
          next r hnm =>
            have h1 := ((ih ts (c + 1)).2.1) n h
            omega
        next c1 hget =>
          simp only [PRes.endCursor] at h
          exact Option.noConfusion h
      next hpeek =>
        split at h
        next op c1 hget =>
          simp only [Prod.mk.injEq] at hget
          obtain ⟨hg, hc1⟩ := hget
          subst hc1
          split at h
          next right c2 hterm =>
            have h1 := ((ih ts (c + 1)).2.1) c2 (by rw [hterm]; rfl)
            have h2 := ((ih ts c2).2.2.2.2) _ n h
            omega
          next r hnm =>
            have h1 := ((ih ts (c + 1)).2.1) n h
            omega
        next c1 hget =>
          simp only [PRes.endCursor] at h
          exact Option.noConfusion h
      next hne1 hne2 =>
        simp only [PRes.endCursor, Option.some.injEq] at h
        omega

/-- A successful `List.get?` certifies that the index is in bounds. -/
theorem get_some_lt_length {α : Type} {l : List α} {i : Nat} {a : α}
    (h : l.get? i = some a) : i < l.length := by
  cases Nat.lt_or_ge i l.length with
  | inl hlt => exact hlt
  | inr hge => rw [List.get?_eq_none.mpr hge] at h; cases h

/-- Fuel sufficiency: `5 * (remaining tokens) + (level constant)` steps of
fuel are enough for every parser method, at every cursor. -/
theorem parser_enough_fuel (fuel : Nat) : ∀ (ts : List Token) (c : Nat),
    (5 * (ts.length - c) + 3 ≤ fuel → Parser.parse_factor fuel ts c ≠ PRes.outOfFuel) ∧
    (5 * (ts.length - c) + 4 ≤ fuel → Parser.parse_term fuel ts c ≠ PRes.outOfFuel) ∧
    (5 * (ts.length - c) + 5 ≤ fuel → Parser.parse_expression fuel ts c ≠ PRes.outOfFuel) ∧
    (∀ node, 5 * (ts.length - c) + 3 ≤ fuel →
      Parser.parse_term_loop fuel ts node c ≠ PRes.outOfFuel) ∧
    (∀ node, 5 * (ts.length - c) + 4 ≤ fuel →
      Parser.parse_expression_loop fuel ts node c ≠ PRes.outOfFuel) := by
  induction fuel with
  | zero =>
    intro ts c
    refine ⟨?_, ?_, ?_, fun node => ?_, fun node => ?_⟩ <;> intro hf <;> omega
  | succ f ih =>
    intro ts c
    refine ⟨?_, ?_, ?_, fun node => ?_, fun node => ?_⟩
    · -- parse_factor
      intro hf
      simp only [Parser.parse_factor, Parser.advance]
      split
      next value c1 heq => simp
      next c1 heq =>
        simp only [Prod.mk.injEq] at heq
        obtain ⟨hget, hc1⟩ := heq
        subst hc1
        have hc : c < ts.length := get_some_lt_length hget
        split
        next node c2 hexp =>
          split
          · simp
          · simp
        next r hnm =>
          exact ((ih ts (c + 1)).2.2.1) (by omega)
      next t c1 hne1 hne2 heq => simp
      next c1 heq => simp
    · -- parse_term
      intro hf
      simp only [Parser.parse_term]
      split
      next node c1 hfac =>
        have h1 := (parser_cursors f ts c).1 c1 (by rw [hfac]; rfl)
        exact ((ih ts c1).2.2.2.1) node (by omega)
      next r hnm =>
        exact ((ih ts c).1) (by omega)
    · -- parse_expression
      intro hf
      simp only [Parser.parse_expression]
      split
      next node c1 hterm =>
        have h1 := (parser_cursors f ts c).2.1 c1 (by rw [hterm]; rfl)
        exact ((ih ts c1).2.2.2.2) node (by omega)
      next r hnm =>
        exact ((ih ts c).2.1) (by omega)
    · -- parse_term_loop
      intro hf
      simp only [Parser.parse_term_loop, Parser.peek, Parser.advance]
      split
      next hpeek =>
        have hc : c < ts.length := get_some_lt_length hpeek
        split
        next op c1 hget =>
          simp only [Prod.mk.injEq] at hget
          obtain ⟨hg, hc1⟩ := hget
          subst hc1
          split
          next right c2 hfac =>
            have h1 := (parser_cursors f ts (c + 1)).1 c2 (by rw [hfac]; rfl)
            exact ((ih ts c2).2.2.2.1) _ (by omega)
          next r hnm =>
            exact ((ih ts (c + 1)).1) (by omega)
        next c1 hget => simp
      next hpeek =>
        have hc : c < ts.length := get_some_lt_length hpeek
        split
        next op c1 hget =>
          simp only [Prod.mk.injEq] at hget
          obtain ⟨hg, hc1⟩ := hget
          subst hc1
          split
          next right c2 hfac =>
            have h1 := (parser_cursors f ts (c + 1)).1 c2 (by rw [hfac]; rfl)
            exact ((ih ts c2).2.2.2.1) _ (by omega)
          next r hnm =>
            exact ((ih ts (c + 1)).1) (by omega)
        next c1 hget => simp
      next hne1 hne2 => simp
    · -- parse_expression_loop
      intro hf
      simp only [Parser.parse_expression_loop, Parser.peek, Parser.advance]
      split
      next hpeek =>
        have hc : c < ts.length := get_some_lt_length hpeek
        split
        next op c1 hget =>
          simp only [Prod.mk.injEq] at hget
          obtain ⟨hg, hc1⟩ := hget
          subst hc1
          split
          next right c2 hterm =>
            have h1 := (parser_cursors f ts (c + 1)).2.1 c2 (by rw [hterm]; rfl)
            exact ((ih ts c2).2.2.2.2) _ (by omega)
          next r hnm =>
            exact ((ih ts (c + 1)).2.1) (by omega)
        next c1 hget => simp
      next hpeek =>
        have hc : c < ts.length := get_some_lt_length hpeek
        split
        next op c1 hget =>
          simp only [Prod.mk.injEq] at hget
          obtain ⟨hg, hc1⟩ := hget
          subst hc1
          split
          next right c2 hterm =>
            have h1 := (parser_cursors f ts (c + 1)).2.1 c2 (by rw [hterm]; rfl)
            exact ((ih ts c2).2.2.2.2) _ (by omega)
          next r hnm =>
            exact ((ih ts (c + 1)).2.1) (by omega)
        next c1 hget => simp
      next hne1 hne2 => simp

/-- C9: `parse_factor`, `parse_term`, `parse_expression` and `parse`
terminate on every finite token sequence, from every cursor position,
despite the mutual recursion through the `LeftParen` branch: the fuel
`5 * ts.length + 5` used by the embedding is never exhausted, so every run
ends in `Ok` or `Err` (or, for the two `.expect` calls, a panic — ruled out
separately) after finitely many steps. -/
theorem C9_parser_total : ∀ (ts : List Token) (c : Nat),
    Parser.parse_factor (5 * ts.length + 5) ts c ≠ PRes.outOfFuel ∧
    Parser.parse_term (5 * ts.length + 5) ts c ≠ PRes.outOfFuel ∧
    Parser.parse_expression (5 * ts.length + 5) ts c ≠ PRes.outOfFuel ∧
    Parser.parse ts ≠ PRes.outOfFuel := by
  intro ts c
  have h := parser_enough_fuel (5 * ts.length + 5) ts c
  have h0 := parser_enough_fuel (5 * ts.length + 5) ts 0
  exact ⟨h.1 (by omega), h.2.1 (by omega), h.2.2.1 (by omega), h0.2.2.1 (by omega)⟩

/-- C9 witness: the terminating behaviour at a concrete token sequence. -/
theorem C9_witness :
    Parser.parse_factor 15 [Token.Number 1, Token.EOF] 0 ≠ PRes.outOfFuel ∧
    Parser.parse [Token.Number 1, Token.EOF] ≠ PRes.outOfFuel := by
  exact ⟨(C9_parser_total [Token.Number 1, Token.EOF] 0).1,
    (C9_parser_total [Token.Number 1, Token.EOF] 0).2.2.2⟩

/-- Giving a parser method more fuel than a non-exhausted run does not
change its result: results are fuel-independent once sufficient. -/
theorem parser_fuel_mono (fuel : Nat) : ∀ (fuel2 : Nat) (ts : List Token) (c : Nat),
    fuel ≤ fuel2 →
    (Parser.parse_factor fuel ts c ≠ PRes.outOfFuel →
      Parser.parse_factor fuel2 ts c = Parser.parse_factor fuel ts c) ∧
    (Parser.parse_term fuel ts c ≠ PRes.outOfFuel →
      Parser.parse_term fuel2 ts c = Parser.parse_term fuel ts c) ∧
    (Parser.parse_expression fuel ts c ≠ PRes.outOfFuel →
      Parser.parse_expression fuel2 ts c = Parser.parse_expression fuel ts c) ∧
    (∀ node, Parser.parse_term_loop fuel ts node c ≠ PRes.outOfFuel →
      Parser.parse_term_loop fuel2 ts node c = Parser.parse_term_loop fuel ts node c) ∧
    (∀ node, Parser.parse_expression_loop fuel ts node c ≠ PRes.outOfFuel →
      Parser.parse_expression_loop fuel2 ts node c = Parser.parse_expression_loop fuel ts node c) := by
  induction fuel with
  | zero =>
    intro fuel2 ts c _
    refine ⟨?_, ?_, ?_, fun node => ?_, fun node => ?_⟩ <;> intro h <;>
      [skip; skip; skip; skip; skip] <;>
      exact absurd (by simp [Parser.parse_factor, Parser.parse_term,
        Parser.parse_expression, Parser.parse_term_loop, Parser.parse_expression_loop]) h
  | succ f ih =>
    intro fuel2 ts c hle
    cases fuel2 with
    | zero => omega
    | succ f2 =>
    have hle2 : f ≤ f2 := by omega
    refine ⟨?_, ?_, ?_, fun node => ?_, fun node => ?_⟩
    · -- parse_factor
      intro h
      simp only [Parser.parse_factor, Parser.advance] at h ⊢
      cases hget : ts.get? c with
      | none => simp only [hget]
      | some t =>
        cases t <;> simp only [hget]
        -- LeftParen is the only branch with a recursive call
        case LeftParen =>
          simp only [hget] at h
          cases hE : Parser.parse_expression f ts (c + 1) with
          | outOfFuel => simp [hE] at h
          | ok node c2 =>
            have hE2 : Parser.parse_expression f2 ts (c + 1) = PRes.ok node c2 := by
              rw [(ih f2 ts (c + 1) hle2).2.2.1 (by rw [hE]; simp), hE]
            rw [hE2]
          | err e c2 =>
            have hE2 : Parser.parse_expression f2 ts (c + 1) = PRes.err e c2 := by
              rw [(ih f2 ts (c + 1) hle2).2.2.1 (by rw [hE]; simp), hE]
            rw [hE2]
          | panicked s =>
            have hE2 : Parser.parse_expression f2 ts (c + 1) = PRes.panicked s := by
              rw [(ih f2 ts (c + 1) hle2).2.2.1 (by rw [hE]; simp), hE]
            rw [hE2]
    · -- parse_term
      intro h
      simp only [Parser.parse_term] at h ⊢
      cases hF : Parser.parse_factor f ts c with
      | outOfFuel => simp [hF] at h
      | ok node c1 =>
        have hF2 : Parser.parse_factor f2 ts c = PRes.ok node c1 := by
          rw [(ih f2 ts c hle2).1 (by rw [hF]; simp), hF]
        rw [hF2]
        rw [hF] at h
        exact (ih f2 ts c1 hle2).2.2.2.1 node h
      | err e c1 =>
        have hF2 : Parser.parse_factor f2 ts c = PRes.err e c1 := by
          rw [(ih f2 ts c hle2).1 (by rw [hF]; simp), hF]
        rw [hF2]
      | panicked s =>
        have hF2 : Parser.parse_factor f2 ts c = PRes.panicked s := by
          rw [(ih f2 ts c hle2).1 (by rw [hF]; simp), hF]
        rw [hF2]
    · -- parse_expression
      intro h
      simp only [Parser.parse_expression] at h ⊢
      cases hT : Parser.parse_term f ts c with
      | outOfFuel => simp [hT] at h
      | ok node c1 =>
        have hT2 : Parser.parse_term f2 ts c = PRes.ok node c1 := by
          rw [(ih f2 ts c hle2).2.1 (by rw [hT]; simp), hT]
        rw [hT2]
        rw [hT] at h
        exact (ih f2 ts c1 hle2).2.2.2.2 node h
      | err e c1 =>
        have hT2 : Parser.parse_term f2 ts c = PRes.err e c1 := by
          rw [(ih f2 ts c hle2).2.1 (by rw [hT]; simp), hT]
        rw [hT2]
      | panicked s =>
        have hT2 : Parser.parse_term f2 ts c = PRes.panicked s := by
          rw [(ih f2 ts c hle2).2.1 (by rw [hT]; simp), hT]
        rw [hT2]
    · -- parse_term_loop
      intro h
      simp only [Parser.parse_term_loop, Parser.peek, Parser.advance] at h ⊢
      cases hget : ts.get? c with
      | none => simp only [hget]
      | some t =>
        cases t <;> simp only [hget] <;> try rfl
        case Star =>
          simp only [hget] at h
          cases hF : Parser.parse_factor f ts (c + 1) with
          | outOfFuel => simp [hF] at h
          | ok right c2 =>
            have hF2 : Parser.parse_factor f2 ts (c + 1) = PRes.ok right c2 := by
              rw [(ih f2 ts (c + 1) hle2).1 (by rw [hF]; simp), hF]
            rw [hF2]
            rw [hF] at h
            exact (ih f2 ts c2 hle2).2.2.2.1 _ h
          | err e c2 =>
            have hF2 : Parser.parse_factor f2 ts (c + 1) = PRes.err e c2 := by
              rw [(ih f2 ts (c + 1) hle2).1 (by rw [hF]; simp), hF]
            rw [hF2]
          | panicked s =>
            have hF2 : Parser.parse_factor f2 ts (c + 1) = PRes.panicked s := by
              rw [(ih f2 ts (c + 1) hle2).1 (by rw [hF]; simp), hF]
            rw [hF2]
        case Slash =>
          simp only [hget] at h
          cases hF : Parser.parse_factor f ts (c + 1) with
          | outOfFuel => simp [hF] at h
          | ok right c2 =>
            have hF2 : Parser.parse_factor f2 ts (c + 1) = PRes.ok right c2 := by
              rw [(ih f2 ts (c + 1) hle2).1 (by rw [hF]; simp), hF]
            rw [hF2]
            rw [hF] at h
            exact (ih f2 ts c2 hle2).2.2.2.1 _ h
          | err e c2 =>
            have hF2 : Parser.parse_factor f2 ts (c + 1) = PRes.err e c2 := by
              rw [(ih f2 ts (c + 1) hle2).1 (by rw [hF]; simp), hF]
            rw [hF2]
          | panicked s =>
            have hF2 : Parser.parse_factor f2 ts (c + 1) = PRes.panicked s := by
              rw [(ih f2 ts (c + 1) hle2).1 (by rw [hF]; simp), hF]
            rw [hF2]
    · -- parse_expression_loop
      intro h
      simp only [Parser.parse_expression_loop, Parser.peek, Parser.advance] at h ⊢
      cases hget : ts.get? c with
      | none => simp only [hget]
      | some t =>
        cases t <;> simp only [hget] <;> try rfl
        case Plus =>
          simp only [hget] at h
          cases hT : Parser.parse_term f ts (c + 1) with
          | outOfFuel => simp [hT] at h
          | ok right c2 =>
            have hT2 : Parser.parse_term f2 ts (c + 1) = PRes.ok right c2 := by
              rw [(ih f2 ts (c + 1) hle2).2.1 (by rw [hT]; simp), hT]
            rw [hT2]
            rw [hT] at h
            exact (ih f2 ts c2 hle2).2.2.2.2 _ h
          | err e c2 =>
            have hT2 : Parser.parse_term f2 ts (c + 1) = PRes.err e c2 := by
              rw [(ih f2 ts (c + 1) hle2).2.1 (by rw [hT]; simp), hT]
            rw [hT2]
          | panicked s =>
            have hT2 : Parser.parse_term f2 ts (c + 1) = PRes.panicked s := by
              rw [(ih f2 ts (c + 1) hle2).2.1 (by rw [hT]; simp), hT]
            rw [hT2]
        case Dash =>
          simp only [hget] at h
          cases hT : Parser.parse_term f ts (c + 1) with
          | outOfFuel => simp [hT] at h
          | ok right c2 =>
            have hT2 : Parser.parse_term f2 ts (c + 1) = PRes.ok right c2 := by
              rw [(ih f2 ts (c + 1) hle2).2.1 (by rw [hT]; simp), hT]
            rw [hT2]
            rw [hT] at h
            exact (ih f2 ts c2 hle2).2.2.2.2 _ h
          | err e c2 =>
            have hT2 : Parser.parse_term f2 ts (c + 1) = PRes.err e c2 := by
              rw [(ih f2 ts (c + 1) hle2).2.1 (by rw [hT]; simp), hT]
            rw [hT2]
          | panicked s =>
            have hT2 : Parser.parse_term f2 ts (c + 1) = PRes.panicked s := by
              rw [(ih f2 ts (c + 1) hle2).2.1 (by rw [hT]; simp), hT]
            rw [hT2]

/-- No parser method ever reaches the `.expect(...)` panic: whenever the
operator branch is entered, `peek` has just returned `Some` at the same
cursor, so `advance` returns `Some` as well. -/
theorem parser_no_panic (fuel : Nat) : ∀ (ts : List Token) (c : Nat),
    (∀ s, Parser.parse_factor fuel ts c ≠ PRes.panicked s) ∧
    (∀ s, Parser.parse_term fuel ts c ≠ PRes.panicked s) ∧
    (∀ s, Parser.parse_expression fuel ts c ≠ PRes.panicked s) ∧
    (∀ node s, Parser.parse_term_loop fuel ts node c ≠ PRes.panicked s) ∧
    (∀ node s, Parser.parse_expression_loop fuel ts node c ≠ PRes.panicked s) := by
  induction fuel with
  | zero =>
    intro ts c
    refine ⟨?_, ?_, ?_, ?_, ?_⟩ <;> intros <;>
      simp [Parser.parse_factor, Parser.parse_term, Parser.parse_expression,
        Parser.parse_term_loop, Parser.parse_expression_loop]
  | succ f ih =>
    intro ts c
    refine ⟨?_, ?_, ?_, ?_, ?_⟩
    · -- parse_factor
      intro s
      simp only [Parser.parse_factor, Parser.advance]
      split
      next value c1 heq => simp
      next c1 heq =>
        simp only [Prod.mk.injEq] at heq
        obtain ⟨hget, hc1⟩ := heq
        subst hc1
        split
        next node c2 hexp =>
          split
          · simp
          · simp
        next r hnm =>
          exact ((ih ts (c + 1)).2.2.1) s
      next t c1 hne1 hne2 heq => simp
      next c1 heq => simp
    · -- parse_term
      intro s
      simp only [Parser.parse_term]
      split
      next node c1 hfac =>
        exact ((ih ts c1).2.2.2.1) node s
      next r hnm =>
        intro hcon
        exact ((ih ts c).1) s (by rw [hcon])
    · -- parse_expression
      intro s
      simp only [Parser.parse_expression]
      split
      next node c1 hterm =>
        exact ((ih ts c1).2.2.2.2) node s
      next r hnm =>
        intro hcon
        exact ((ih ts c).2.1) s (by rw [hcon])
    · -- parse_term_loop
      intro node s
      simp only [Parser.parse_term_loop, Parser.peek, Parser.advance]
      split
      next hpeek =>
        split
        next op c1 hget =>
          simp only [Prod.mk.injEq] at hget
          obtain ⟨hg, hc1⟩ := hget
          subst hc1
          split
          next right c2 hfac =>
            exact ((ih ts c2).2.2.2.1) _ s
          next r hnm =>
            intro hcon
            exact ((ih ts (c + 1)).1) s (by rw [hcon])
        next c1 hget =>
          rw [hpeek] at hget
          simp at hget
      next hpeek =>
        split
        next op c1 hget =>
          simp only [Prod.mk.injEq] at hget
          obtain ⟨hg, hc1⟩ := hget
          subst hc1
          split
          next right c2 hfac =>
            exact ((ih ts c2).2.2.2.1) _ s
          next r hnm =>
            intro hcon
            exact ((ih ts (c + 1)).1) s (by rw [hcon])
        next c1 hget =>
          rw [hpeek] at hget
          simp at hget
      next hne1 hne2 => simp
    · -- parse_expression_loop
      intro node s
      simp only [Parser.parse_expression_loop, Parser.peek, Parser.advance]
      split
      next hpeek =>
        split
        next op c1 hget =>
          simp only [Prod.mk.injEq] at hget
          obtain ⟨hg, hc1⟩ := hget
          subst hc1
          split
          next right c2 hterm =>
            exact ((ih ts c2).2.2.2.2) _ s
          next r hnm =>
            intro hcon
            exact ((ih ts (c + 1)).2.1) s (by rw [hcon])
        next c1 hget =>
          rw [hpeek] at hget
          simp at hget
      next hpeek =>
        split
        next op c1 hget =>
          simp only [Prod.mk.injEq] at hget
          obtain ⟨hg, hc1⟩ := hget
          subst hc1
          split
          next right c2 hterm =>
            exact ((ih ts c2).2.2.2.2) _ s
          next r hnm =>
            intro hcon
            exact ((ih ts (c + 1)).2.1) s (by rw [hcon])
        next c1 hget =>
          rw [hpeek] at hget
          simp at hget
      next hne1 hne2 => simp

/-- Every `BinaryOp` node built by the parser stores one of the four
arithmetic operator tokens: the loops only enter the folding branch after
peeking `Star`/`Slash` (resp. `Plus`/`Dash`), and the operator stored is the
very token peeked. -/
theorem parser_ops_valid (fuel : Nat) : ∀ (ts : List Token) (c : Nat),
    (∀ node n, Parser.parse_factor fuel ts c = PRes.ok node n → opsValid node = true) ∧
    (∀ node n, Parser.parse_term fuel ts c = PRes.ok node n → opsValid node = true) ∧
    (∀ node n, Parser.parse_expression fuel ts c = PRes.ok node n → opsValid node = true) ∧
    (∀ acc node n, opsValid acc = true →
      Parser.parse_term_loop fuel ts acc c = PRes.ok node n → opsValid node = true) ∧
    (∀ acc node n, opsValid acc = true →
      Parser.parse_expression_loop fuel ts acc c = PRes.ok node n → opsValid node = true) := by
  induction fuel with
  | zero =>
    intro ts c
    refine ⟨?_, ?_, ?_, ?_, ?_⟩ <;> intros <;>
      simp_all [Parser.parse_factor, Parser.parse_term, Parser.parse_expression,
        Parser.parse_term_loop, Parser.parse_expression_loop]
  | succ f ih =>
    intro ts c
    refine ⟨?_, ?_, ?_, ?_, ?_⟩
    · -- parse_factor
      intro node n h
      simp only [Parser.parse_factor, Parser.advance] at h
      split at h
      next value c1 heq =>
        simp only [PRes.ok.injEq] at h
        rw [← h.1]
        simp [opsValid]
      next c1 heq =>
        split at h
        next node2 c2 hexp =>
          have h2 := ((ih ts (c + 1)).2.2.1) node2 c2 (by
            simp only [Prod.mk.injEq] at heq
            rw [← heq.2] at hexp
            exact hexp)
          split at h
          · simp only [PRes.ok.injEq] at h
            rw [← h.1]
            exact h2
          · exact absurd h (by simp)
        next r hnm =>
          simp only [Prod.mk.injEq] at heq
          rw [← heq.2] at h
          exact ((ih ts (c + 1)).2.2.1) node n h
      next t c1 hne1 hne2 heq => exact absurd h (by simp)
      next c1 heq => exact absurd h (by simp)
    · -- parse_term
      intro node n h
      simp only [Parser.parse_term] at h
      split at h
      next node1 c1 hfac =>
        have h1 := ((ih ts c).1) node1 c1 hfac
        exact ((ih ts c1).2.2.2.1) node1 node n h1 h
      next r hnm =>
        exact ((ih ts c).1) node n h
    · -- parse_expression
      intro node n h
      simp only [Parser.parse_expression] at h
      split at h
      next node1 c1 hterm =>
        have h1 := ((ih ts c).2.1) node1 c1 hterm
        exact ((ih ts c1).2.2.2.2) node1 node n h1 h
      next r hnm =>
        exact ((ih ts c).2.1) node n h
    · -- parse_term_loop
      intro acc node n hacc h
      simp only [Parser.parse_term_loop, Parser.peek, Parser.advance] at h
      split at h
      next hpeek =>
        split at h
        next op c1 hget =>
          simp only [Prod.mk.injEq] at hget
          obtain ⟨hg, hc1⟩ := hget
          subst hc1
          rw [hpeek] at hg
          simp only [Option.some.injEq] at hg
          split at h
          next right c2 hfac =>
            have hr := ((ih ts (c + 1)).1) right c2 hfac
            subst hg
            refine ((ih ts c2).2.2.2.1) _ node n ?_ h
            simp [opsValid, hacc, hr]
          next r hnm =>
            exact absurd h (hnm node n)
        next c1 hget =>
          rw [hpeek] at hget
          simp at hget
      next hpeek =>
        split at h
        next op c1 hget =>
          simp only [Prod.mk.injEq] at hget
          obtain ⟨hg, hc1⟩ := hget
          subst hc1
          rw [hpeek] at hg
          simp only [Option.some.injEq] at hg
          split at h
          next right c2 hfac =>
            have hr := ((ih ts (c + 1)).1) right c2 hfac
            subst hg
            refine ((ih ts c2).2.2.2.1) _ node n ?_ h
            simp [opsValid, hacc, hr]
          next r hnm =>
            exact absurd h (hnm node n)
        next c1 hget =>
          rw [hpeek] at hget
          simp at hget
      next hne1 hne2 =>
        simp only [PRes.ok.injEq] at h
        rw [← h.1]
        exact hacc
    · -- parse_expression_loop
      intro acc node n hacc h
      simp only [Parser.parse_expression_loop, Parser.peek, Parser.advance] at h
      split at h
      next hpeek =>
        split at h
        next op c1 hget =>
          simp only [Prod.mk.injEq] at hget
          obtain ⟨hg, hc1⟩ := hget
          subst hc1
          rw [hpeek] at hg
          simp only [Option.some.injEq] at hg
          split at h
          next right c2 hterm =>
            have hr := ((ih ts (c + 1)).2.1) right c2 hterm
            subst hg
            refine ((ih ts c2).2.2.2.2) _ node n ?_ h
            simp [opsValid, hacc, hr]
          next r hnm =>
            exact absurd h (hnm node n)
        next c1 hget =>
          rw [hpeek] at hget
          simp at hget
      next hpeek =>
        split at h
        next op c1 hget =>
          simp only [Prod.mk.injEq] at hget
          obtain ⟨hg, hc1⟩ := hget
          subst hc1
          rw [hpeek] at hg
          simp only [Option.some.injEq] at hg
          split at h
          next right c2 hterm =>
            have hr := ((ih ts (c + 1)).2.1) right c2 hterm
            subst hg
            refine ((ih ts c2).2.2.2.2) _ node n ?_ h
            simp [opsValid, hacc, hr]
          next r hnm =>
            exact absurd h (hnm node n)
        next c1 hget =>
          rw [hpeek] at hget
          simp at hget
      next hne1 hne2 =>
        simp only [PRes.ok.injEq] at h
        rw [← h.1]
        exact hacc

/-- C10: the two `.expect(...)` calls on `advance` in `parse_term` and
`parse_expression` can never fire: no parser method ever returns the panic
outcome, on any token sequence, cursor and fuel; and every `BinaryOp` node
in a returned AST carries an operator from `{Plus, Dash, Star, Slash}`. -/
theorem C10_no_panic_and_valid_operators :
    (∀ fuel ts c s, Parser.parse_factor fuel ts c ≠ PRes.panicked s) ∧
    (∀ fuel ts c s, Parser.parse_term fuel ts c ≠ PRes.panicked s) ∧
    (∀ fuel ts c s, Parser.parse_expression fuel ts c ≠ PRes.panicked s) ∧
    (∀ ts s, Parser.parse ts ≠ PRes.panicked s) ∧
    (∀ ts node n, Parser.parse ts = PRes.ok node n → opsValid node = true) :=
  ⟨fun fuel ts c s => (parser_no_panic fuel ts c).1 s,
    fun fuel ts c s => (parser_no_panic fuel ts c).2.1 s,
    fun fuel ts c s => (parser_no_panic fuel ts c).2.2.1 s,
    fun ts s => (parser_no_panic (5 * ts.length + 5) ts 0).2.2.1 s,
    fun ts node n h => (parser_ops_valid (5 * ts.length + 5) ts 0).2.2.1 node n h⟩

/-- C10 witness: the no-panic and operator-validity facts instantiated on
the token sequence of "2 * 3". -/
theorem C10_witness :
    (Parser.parse [Token.Number 2, Token.Star, Token.Number 3, Token.EOF] ≠
      PRes.panicked ("Expected operator but found unexpected EOF")) ∧
    opsValid (ASTNode.BinaryOp Token.Star (ASTNode.Number 2) (ASTNode.Number 3)) = true := by
  constructor
  · exact C10_no_panic_and_valid_operators.2.2.2.1
      [Token.Number 2, Token.Star, Token.Number 3, Token.EOF] _
  · exact C10_no_panic_and_valid_operators.2.2.2.2
      [Token.Number 2, Token.Star, Token.Number 3, Token.EOF]
      (ASTNode.BinaryOp Token.Star (ASTNode.Number 2) (ASTNode.Number 3)) 3
      (by simp +decide [Parser.parse, Parser.parse_expression, Parser.parse_term,
        Parser.parse_factor, Parser.parse_term_loop, Parser.parse_expression_loop,
        Parser.peek, Parser.advance])

/-- On a token sequence whose last element is `EOF`, every token that is not
`EOF` sits strictly before the last position. -/
theorem last_eof_next_lt {ts : List Token} {p : Nat} {t : Token}
    (hlast : ts.getLast? = some Token.EOF) (hget : ts.get? p = some t)
    (hne : t ≠ Token.EOF) : p + 1 < ts.length := by
  have hp : p < ts.length := get_some_lt_length hget
  rcases Nat.lt_or_ge (p + 1) ts.length with h | h
  · exact h
  · exfalso
    have hp1 : p = ts.length - 1 := by omega
    rw [List.getLast?_eq_getElem?] at hlast
    rw [List.get?_eq_getElem?] at hget
    rw [← hp1] at hlast
    rw [hget] at hlast
    simp at hlast
    exact hne hlast

/-- On a token sequence ending in `EOF` (as every tokenizer output does),
no parser method moves the cursor past the end of the sequence. -/
theorem parser_cursor_in_bounds (fuel : Nat) : ∀ (ts : List Token) (c : Nat),
    ts.getLast? = some Token.EOF →
    ((c < ts.length → ∀ n, (Parser.parse_factor fuel ts c).endCursor = some n → n ≤ ts.length) ∧
     (c < ts.length → ∀ n, (Parser.parse_term fuel ts c).endCursor = some n → n ≤ ts.length) ∧
     (c < ts.length → ∀ n, (Parser.parse_expression fuel ts c).endCursor = some n → n ≤ ts.length) ∧
     (∀ node, c ≤ ts.length → ∀ n,
       (Parser.parse_term_loop fuel ts node c).endCursor = some n → n ≤ ts.length) ∧
     (∀ node, c ≤ ts.length → ∀ n,
       (Parser.parse_expression_loop fuel ts node c).endCursor = some n → n ≤ ts.length)) := by
  induction fuel with
  | zero =>
    intro ts c hlast
    refine ⟨?_, ?_, ?_, ?_, ?_⟩ <;> intros <;>
      simp_all [Parser.parse_factor, Parser.parse_term, Parser.parse_expression,
        Parser.parse_term_loop, Parser.parse_expression_loop, PRes.endCursor]
  | succ f ih =>
    intro ts c hlast
    refine ⟨?_, ?_, ?_, ?_, ?_⟩
    · -- parse_factor
      intro hc n h
      simp only [Parser.parse_factor, Parser.advance] at h
      split at h
      next value c1 heq =>
        simp only [Prod.mk.injEq] at heq
        simp only [PRes.endCursor, Option.some.injEq] at h
        omega
      next c1 heq =>
        simp only [Prod.mk.injEq] at heq
        obtain ⟨hget, hc1⟩ := heq
        subst hc1
        have hc2 : c + 1 < ts.length := last_eof_next_lt hlast hget (by simp)
        split at h
        next node c2 hexp =>
          have hb := ((ih ts (c + 1) hlast).2.2.1) hc2 c2 (by rw [hexp]; rfl)
          split at h
          next hpk =>
            have hc3 : c2 < ts.length := get_some_lt_length hpk
            simp only [PRes.endCursor, Option.some.injEq] at h
            omega
          next o hno =>
            simp only [PRes.endCursor, Option.some.injEq] at h
            omega
        next r hnm =>
          exact ((ih ts (c + 1) hlast).2.2.1) hc2 n h
      next t c1 hne1 hne2 heq =>
        simp only [Prod.mk.injEq] at heq
        simp only [PRes.endCursor, Option.some.injEq] at h
        omega
      next c1 heq =>
        simp only [Prod.mk.injEq] at heq
        obtain ⟨hget, hc1⟩ := heq
        exfalso
        have := List.get?_eq_none.mp hget
        omega
    · -- parse_term
      intro hc n h
      simp only [Parser.parse_term] at h
      split at h
      next node c1 hfac =>
        have hb := ((ih ts c hlast).1) hc c1 (by rw [hfac]; rfl)
        exact ((ih ts c1 hlast).2.2.2.1) node hb n h
      next r hnm =>
        exact ((ih ts c hlast).1) hc n h
    · -- parse_expression
      intro hc n h
      simp only [Parser.parse_expression] at h
      split at h
      next node c1 hterm =>
        have hb := ((ih ts c hlast).2.1) hc c1 (by rw [hterm]; rfl)
        exact ((ih ts c1 hlast).2.2.2.2) node hb n h
      next r hnm =>
        exact ((ih ts c hlast).2.1) hc n h
    · -- parse_term_loop
      intro node hc n h
      simp only [Parser.parse_term_loop, Parser.peek, Parser.advance] at h
      split at h
      next hpeek =>
        have hc2 : c + 1 < ts.length := last_eof_next_lt hlast hpeek (by simp)
        split at h
        next op c1 hget =>
          simp only [Prod.mk.injEq] at hget
          obtain ⟨hg, hc1⟩ := hget
          subst hc1
          split at h
          next right c2 hfac =>
            have hb := ((ih ts (c + 1) hlast).1) hc2 c2 (by rw [hfac]; rfl)
            exact ((ih ts c2 hlast).2.2.2.1) _ hb n h
          next r hnm =>
            exact ((ih ts (c + 1) hlast).1) hc2 n h
        next c1 hget =>
          rw [hpeek] at hget
          simp at hget
      next hpeek =>
        have hc2 : c + 1 < ts.length := last_eof_next_lt hlast hpeek (by simp)
        split at h
        next op c1 hget =>
          simp only [Prod.mk.injEq] at hget
          obtain ⟨hg, hc1⟩ := hget
          subst hc1
          split at h
          next right c2 hfac =>
            have hb := ((ih ts (c + 1) hlast).1) hc2 c2 (by rw [hfac]; rfl)
            exact ((ih ts c2 hlast).2.2.2.1) _ hb n h
          next r hnm =>
            exact ((ih ts (c + 1) hlast).1) hc2 n h
        next c1 hget =>
          rw [hpeek] at hget
          simp at hget
      next hne1 hne2 =>
        simp only [PRes.endCursor, Option.some.injEq] at h
        omega
    · -- parse_expression_loop
      intro node hc n h
      simp only [Parser.parse_expression_loop, Parser.peek, Parser.advance] at h
      split at h
      next hpeek =>
        have hc2 : c + 1 < ts.length := last_eof_next_lt hlast hpeek (by simp)
        split at h
        next op c1 hget =>
          simp only [Prod.mk.injEq] at hget
          obtain ⟨hg, hc1⟩ := hget
          subst hc1
          split at h
          next right c2 hterm =>
            have hb := ((ih ts (c + 1) hlast).2.1) hc2 c2 (by rw [hterm]; rfl)
            exact ((ih ts c2 hlast).2.2.2.2) _ hb n h
          next r hnm =>
            exact ((ih ts (c + 1) hlast).2.1) hc2 n h
        next c1 hget =>
          rw [hpeek] at hget
          simp at hget
      next hpeek =>
        have hc2 : c + 1 < ts.length := last_eof_next_lt hlast hpeek (by simp)
        split at h
        next op c1 hget =>
          simp only [Prod.mk.injEq] at hget
          obtain ⟨hg, hc1⟩ := hget
          subst hc1
          split at h
          next right c2 hterm =>
            have hb := ((ih ts (c + 1) hlast).2.1) hc2 c2 (by rw [hterm]; rfl)
            exact ((ih ts c2 hlast).2.2.2.2) _ hb n h
          next r hnm =>
            exact ((ih ts (c + 1) hlast).2.1) hc2 n h
        next c1 hget =>
          rw [hpeek] at hget
          simp at hget
      next hne1 hne2 =>
        simp only [PRes.endCursor, Option.some.injEq] at h
        omega

/-- C8 (amended): during any run, the cursor is monotonically non-decreasing
(never rewound); reading at or past the last element yields `none` and is
turned into the "Unexpected end of input" error, never an out-of-bounds
failure; and on any token sequence ending in `EOF` — all tokenizer outputs
are of this shape — the cursor never passes the end of the sequence.  (On
arbitrary sequences without the `EOF` terminator the failed `advance` can
leave the cursor one past the end, which is the one correction to the
claim.) -/
theorem C8_cursor_invariants :
    (∀ fuel ts c n, (Parser.parse_factor fuel ts c).endCursor = some n → c ≤ n) ∧
    (∀ fuel ts c n, (Parser.parse_term fuel ts c).endCursor = some n → c ≤ n) ∧
    (∀ fuel ts c n, (Parser.parse_expression fuel ts c).endCursor = some n → c ≤ n) ∧
    (∀ ts c, ts.length ≤ c → Parser.peek ts c = none) ∧
    (∀ fuel ts c, ts.length ≤ c → Parser.parse_factor (fuel + 1) ts c =
      PRes.err (SyntaxError.mk ("Unexpected end of input")) (c + 1)) ∧
    (∀ ts n, ts.getLast? = some Token.EOF →
      (Parser.parse ts).endCursor = some n → n ≤ ts.length) := by
  refine ⟨?_, ?_, ?_, ?_, ?_, ?_⟩
  · intro fuel ts c n h
    have := (parser_cursors fuel ts c).1 n h
    omega
  · intro fuel ts c n h
    have := (parser_cursors fuel ts c).2.1 n h
    omega
  · intro fuel ts c n h
    have := (parser_cursors fuel ts c).2.2.1 n h
    omega
  · intro ts c hlen
    exact List.get?_eq_none.mpr hlen
  · intro fuel ts c hlen
    have hnone : ts.get? c = none := List.get?_eq_none.mpr hlen
    simp only [Parser.parse_factor, Parser.advance, hnone]
  · intro ts n hlast h
    have hpos : 0 < ts.length := by
      cases ts with
      | nil => simp at hlast
      | cons a l => simp
    exact ((parser_cursor_in_bounds (5 * ts.length + 5) ts 0 hlast).2.2.1) hpos n h

/-- C8 witness: the invariants instantiated on the token sequence of "1". -/
theorem C8_witness :
    (0 : Nat) ≤ 1 ∧ Parser.peek [Token.Number 1, Token.EOF] 5 = none ∧
    (1 : Nat) ≤ [Token.Number 1, Token.EOF].length := by
  refine ⟨?_, ?_, ?_⟩
  · exact C8_cursor_invariants.1 15 [Token.Number 1, Token.EOF] 0 1
      (by simp +decide [Parser.parse_factor, Parser.advance, PRes.endCursor])
  · exact C8_cursor_invariants.2.2.2.1 [Token.Number 1, Token.EOF] 5 (by decide)
  · exact C8_cursor_invariants.2.2.2.2.2 [Token.Number 1, Token.EOF] 1 (by decide)
      (by simp +decide [Parser.parse, Parser.parse_expression, Parser.parse_term,
        Parser.parse_factor, Parser.parse_term_loop, Parser.parse_expression_loop,
        Parser.peek, Parser.advance, PRes.endCursor])

/-- A successful parse reads the token sequence only between its starting
cursor and its final cursor (the final lookahead included): running the same
method on any sequence that agrees on that window returns the same result.
This makes "trailing tokens are silently ignored" precise. -/
theorem parser_local (fuel : Nat) : ∀ (ts ts2 : List Token) (c : Nat),
    (∀ node n, Parser.parse_factor fuel ts c = PRes.ok node n →
      (∀ i, c ≤ i → i ≤ n → ts2.get? i = ts.get? i) →
      Parser.parse_factor fuel ts2 c = PRes.ok node n) ∧
    (∀ node n, Parser.parse_term fuel ts c = PRes.ok node n →
      (∀ i, c ≤ i → i ≤ n → ts2.get? i = ts.get? i) →
      Parser.parse_term fuel ts2 c = PRes.ok node n) ∧
    (∀ node n, Parser.parse_expression fuel ts c = PRes.ok node n →
      (∀ i, c ≤ i → i ≤ n → ts2.get? i = ts.get? i) →
      Parser.parse_expression fuel ts2 c = PRes.ok node n) ∧
    (∀ acc node n, Parser.parse_term_loop fuel ts acc c = PRes.ok node n →
      (∀ i, c ≤ i → i ≤ n → ts2.get? i = ts.get? i) →
      Parser.parse_term_loop fuel ts2 acc c = PRes.ok node n) ∧
    (∀ acc node n, Parser.parse_expression_loop fuel ts acc c = PRes.ok node n →
      (∀ i, c ≤ i → i ≤ n → ts2.get? i = ts.get? i) →
      Parser.parse_expression_loop fuel ts2 acc c = PRes.ok node n) := by
  induction fuel with
  | zero =>
    intro ts ts2 c
    refine ⟨?_, ?_, ?_, ?_, ?_⟩ <;> intros <;>
      simp_all [Parser.parse_factor, Parser.parse_term, Parser.parse_expression,
        Parser.parse_term_loop, Parser.parse_expression_loop]
  | succ f ih =>
    intro ts ts2 c
    refine ⟨?_, ?_, ?_, ?_, ?_⟩
    · -- parse_factor
      intro node n h hagree
      have hcn : c + 1 ≤ n := (parser_cursors (f + 1) ts c).1 n (by rw [h]; rfl)
      have hag : ts2.get? c = ts.get? c := hagree c (Nat.le_refl c) (by omega)
      simp only [Parser.parse_factor, Parser.advance, Parser.peek] at h ⊢
      rw [hag]
      cases hget : ts.get? c with
      | none =>
        simp only [hget] at h
        exact absurd h (by simp)
      | some t =>
        cases t <;> simp only [hget] at h ⊢
        case Number value => exact h
        case LeftParen =>
          cases hE : Parser.parse_expression f ts (c + 1) with
          | ok node2 c2 =>
            simp only [hE] at h
            have hb1 : c + 2 ≤ c2 :=
              (parser_cursors f ts (c + 1)).2.2.1 c2 (by rw [hE]; rfl)
            cases hpk : ts.get? c2 with
            | some t2 =>
              cases t2 <;> simp only [hpk] at h
              case RightParen =>
                have hn : n = c2 + 1 := by
                  simp only [PRes.ok.injEq] at h
                  omega
                have hE2 : Parser.parse_expression f ts2 (c + 1) = PRes.ok node2 c2 :=
                  (ih ts ts2 (c + 1)).2.2.1 node2 c2 hE
                    (fun i hi1 hi2 => hagree i (by omega) (by omega))
                have hpk2 : ts2.get? c2 = some Token.RightParen := by
                  rw [hagree c2 (by omega) (by omega), hpk]
                simp only [hE2, hpk2]
                exact h
              all_goals exact absurd h (by simp)
            | none =>
              simp only [hpk] at h
              exact absurd h (by simp)
          | err e c2 => simp [hE] at h
          | panicked s => simp [hE] at h
          | outOfFuel => simp [hE] at h
        all_goals exact absurd h (by simp)
    · -- parse_term
      intro node n h hagree
      have hcn : c + 1 ≤ n := (parser_cursors (f + 1) ts c).2.1 n (by rw [h]; rfl)
      simp only [Parser.parse_term] at h ⊢
      cases hF : Parser.parse_factor f ts c with
      | ok node1 c1 =>
        simp only [hF] at h
        have hb1 : c + 1 ≤ c1 := (parser_cursors f ts c).1 c1 (by rw [hF]; rfl)
        have hb2 : c1 ≤ n := (parser_cursors f ts c1).2.2.2.1 node1 n (by rw [h]; rfl)
        have hF2 : Parser.parse_factor f ts2 c = PRes.ok node1 c1 :=
          (ih ts ts2 c).1 node1 c1 hF (fun i hi1 hi2 => hagree i hi1 (by omega))
        simp only [hF2]
        exact (ih ts ts2 c1).2.2.2.1 node1 node n h
          (fun i hi1 hi2 => hagree i (by omega) hi2)
      | err e c1 => simp [hF] at h
      | panicked s => simp [hF] at h
      | outOfFuel => simp [hF] at h
    · -- parse_expression
      intro node n h hagree
      have hcn : c + 1 ≤ n := (parser_cursors (f + 1) ts c).2.2.1 n (by rw [h]; rfl)
      simp only [Parser.parse_expression] at h ⊢
      cases hT : Parser.parse_term f ts c with
      | ok node1 c1 =>
        simp only [hT] at h
        have hb1 : c + 1 ≤ c1 := (parser_cursors f ts c).2.1 c1 (by rw [hT]; rfl)
        have hb2 : c1 ≤ n := (parser_cursors f ts c1).2.2.2.2 node1 n (by rw [h]; rfl)
        have hT2 : Parser.parse_term f ts2 c = PRes.ok node1 c1 :=
          (ih ts ts2 c).2.1 node1 c1 hT (fun i hi1 hi2 => hagree i hi1 (by omega))
        simp only [hT2]
        exact (ih ts ts2 c1).2.2.2.2 node1 node n h
          (fun i hi1 hi2 => hagree i (by omega) hi2)
      | err e c1 => simp [hT] at h
      | panicked s => simp [hT] at h
      | outOfFuel => simp [hT] at h
    · -- parse_term_loop
      intro acc node n h hagree
      have hcn : c ≤ n := (parser_cursors (f + 1) ts c).2.2.2.1 acc n (by rw [h]; rfl)
      have hag : ts2.get? c = ts.get? c := hagree c (Nat.le_refl c) hcn
      simp only [Parser.parse_term_loop, Parser.peek, Parser.advance] at h ⊢
      rw [hag]
      cases hpeek : ts.get? c with
      | none =>
        simp only [hpeek] at h ⊢
        exact h
      | some t =>
        cases t <;> simp only [hpeek] at h ⊢
        case Star =>
          cases hF : Parser.parse_factor f ts (c + 1) with
          | ok right c2 =>
            simp only [hF] at h
            have hb1 : c + 2 ≤ c2 := (parser_cursors f ts (c + 1)).1 c2 (by rw [hF]; rfl)
            have hb2 : c2 ≤ n :=
              (parser_cursors f ts c2).2.2.2.1 _ n (by rw [h]; rfl)
            have hF2 : Parser.parse_factor f ts2 (c + 1) = PRes.ok right c2 :=
              (ih ts ts2 (c + 1)).1 right c2 hF
                (fun i hi1 hi2 => hagree i (by omega) (by omega))
            simp only [hF2]
            exact (ih ts ts2 c2).2.2.2.1 _ node n h
              (fun i hi1 hi2 => hagree i (by omega) hi2)
          | err e c2 => simp [hF] at h
          | panicked s => simp [hF] at h
          | outOfFuel => simp [hF] at h
        case Slash =>
          cases hF : Parser.parse_factor f ts (c + 1) with
          | ok right c2 =>
            simp only [hF] at h
            have hb1 : c + 2 ≤ c2 := (parser_cursors f ts (c + 1)).1 c2 (by rw [hF]; rfl)
            have hb2 : c2 ≤ n :=
              (parser_cursors f ts c2).2.2.2.1 _ n (by rw [h]; rfl)
            have hF2 : Parser.parse_factor f ts2 (c + 1) = PRes.ok right c2 :=
              (ih ts ts2 (c + 1)).1 right c2 hF
                (fun i hi1 hi2 => hagree i (by omega) (by omega))
            simp only [hF2]
            exact (ih ts ts2 c2).2.2.2.1 _ node n h
              (fun i hi1 hi2 => hagree i (by omega) hi2)
          | err e c2 => simp [hF] at h
          | panicked s => simp [hF] at h
          | outOfFuel => simp [hF] at h
        all_goals exact h
    · -- parse_expression_loop
      intro acc node n h hagree
      have hcn : c ≤ n := (parser_cursors (f + 1) ts c).2.2.2.2 acc n (by rw [h]; rfl)
      have hag : ts2.get? c = ts.get? c := hagree c (Nat.le_refl c) hcn
      simp only [Parser.parse_expression_loop, Parser.peek, Parser.advance] at h ⊢
      rw [hag]
      cases hpeek : ts.get? c with
      | none =>
        simp only [hpeek] at h ⊢
        exact h
      | some t =>
        cases t <;> simp only [hpeek] at h ⊢
        case Plus =>
          cases hT : Parser.parse_term f ts (c + 1) with
          | ok right c2 =>
            simp only [hT] at h
            have hb1 : c + 2 ≤ c2 := (parser_cursors f ts (c + 1)).2.1 c2 (by rw [hT]; rfl)
            have hb2 : c2 ≤ n :=
              (parser_cursors f ts c2).2.2.2.2 _ n (by rw [h]; rfl)
            have hT2 : Parser.parse_term f ts2 (c + 1) = PRes.ok right c2 :=
              (ih ts ts2 (c + 1)).2.1 right c2 hT
                (fun i hi1 hi2 => hagree i (by omega) (by omega))
            simp only [hT2]
            exact (ih ts ts2 c2).2.2.2.2 _ node n h
              (fun i hi1 hi2 => hagree i (by omega) hi2)
          | err e c2 => simp [hT] at h
          | panicked s => simp [hT] at h
          | outOfFuel => simp [hT] at h
        case Dash =>
          cases hT : Parser.parse_term f ts (c + 1) with
          | ok right c2 =>
            simp only [hT] at h
            have hb1 : c + 2 ≤ c2 := (parser_cursors f ts (c + 1)).2.1 c2 (by rw [hT]; rfl)
            have hb2 : c2 ≤ n :=
              (parser_cursors f ts c2).2.2.2.2 _ n (by rw [h]; rfl)
            have hT2 : Parser.parse_term f ts2 (c + 1) = PRes.ok right c2 :=
              (ih ts ts2 (c + 1)).2.1 right c2 hT
                (fun i hi1 hi2 => hagree i (by omega) (by omega))
            simp only [hT2]
            exact (ih ts ts2 c2).2.2.2.2 _ node n h
              (fun i hi1 hi2 => hagree i (by omega) hi2)
          | err e c2 => simp [hT] at h
          | panicked s => simp [hT] at h
          | outOfFuel => simp [hT] at h
        all_goals exact h

/-- Two runs of `parse_expression` that both have enough fuel agree. -/
theorem parse_expression_stable (f1 f2 : Nat) (ts : List Token) (c : Nat)
    (h1 : Parser.parse_expression f1 ts c ≠ PRes.outOfFuel)
    (h2 : Parser.parse_expression f2 ts c ≠ PRes.outOfFuel) :
    Parser.parse_expression f1 ts c = Parser.parse_expression f2 ts c := by
  rcases Nat.le_total f1 f2 with h | h
  · exact ((parser_fuel_mono f1 f2 ts c h).2.2.1 h1).symm
  · exact (parser_fuel_mono f2 f1 ts c h).2.2.1 h2

/-- C4: `parse` calls `parse_expression` once and returns its result with no
check that the cursor reached the `EOF` token: whatever sits in the sequence
beyond the final cursor of a successful parse is silently ignored (any
sequence agreeing up to that cursor parses to the same `Ok` result), and in
particular the tokens of "2 + 3)" parse to the AST of the prefix "2 + 3",
leaving the trailing `RightParen` and `EOF` unconsumed. -/
theorem C4_trailing_tokens_ignored :
    (∀ ts ts2 node n, Parser.parse ts = PRes.ok node n →
      (∀ i, i ≤ n → ts2.get? i = ts.get? i) →
      Parser.parse ts2 = PRes.ok node n) ∧
    Parser.parse [Token.Number 2, Token.Plus, Token.Number 3, Token.RightParen,
        Token.EOF] =
      PRes.ok (ASTNode.BinaryOp Token.Plus (ASTNode.Number 2) (ASTNode.Number 3)) 3 ∧
    (3 : Nat) <
      [Token.Number 2, Token.Plus, Token.Number 3, Token.RightParen, Token.EOF].length := by
  refine ⟨?_, ?_, by decide⟩
  · intro ts ts2 node n h hagree
    have hl : Parser.parse_expression (5 * ts.length + 5) ts2 0 = PRes.ok node n :=
      (parser_local (5 * ts.length + 5) ts ts2 0).2.2.1 node n h
        (fun i hi1 hi2 => hagree i hi2)
    have hne1 : Parser.parse_expression (5 * ts.length + 5) ts2 0 ≠ PRes.outOfFuel := by
      rw [hl]
      simp
    have hne2 : Parser.parse_expression (5 * ts2.length + 5) ts2 0 ≠ PRes.outOfFuel :=
      (parser_enough_fuel (5 * ts2.length + 5) ts2 0).2.2.1 (by omega)
    calc Parser.parse ts2
        = Parser.parse_expression (5 * ts2.length + 5) ts2 0 := rfl
      _ = Parser.parse_expression (5 * ts.length + 5) ts2 0 :=
          parse_expression_stable (5 * ts2.length + 5) (5 * ts.length + 5) ts2 0 hne2 hne1
      _ = PRes.ok node n := hl
  · simp +decide [Parser.parse, Parser.parse_expression, Parser.parse_term,
      Parser.parse_factor, Parser.parse_term_loop, Parser.parse_expression_loop,
      Parser.peek, Parser.advance]

/-- C4 witness: appending a stray `RightParen` after the `EOF` of the valid
token sequence of "2 + 3" does not change the successful parse result. -/
theorem C4_witness :
    Parser.parse [Token.Number 2, Token.Plus, Token.Number 3, Token.EOF,
      Token.RightParen] =
      PRes.ok (ASTNode.BinaryOp Token.Plus (ASTNode.Number 2) (ASTNode.Number 3)) 3 := by
  refine C4_trailing_tokens_ignored.1
    [Token.Number 2, Token.Plus, Token.Number 3, Token.EOF]
    [Token.Number 2, Token.Plus, Token.Number 3, Token.EOF, Token.RightParen]
    (ASTNode.BinaryOp Token.Plus (ASTNode.Number 2) (ASTNode.Number 3)) 3 ?_ ?_
  · simp +decide [Parser.parse, Parser.parse_expression, Parser.parse_term,
      Parser.parse_factor, Parser.parse_term_loop, Parser.parse_expression_loop,
      Parser.peek, Parser.advance]
  · intro i hi
    interval_cases i <;> rfl

/-- An ASCII digit is not whitespace and is none of the six symbol
characters: a digit run is entered only through the digit branch. -/
theorem digit_char_facts {c : Char} (hd : isAsciiDigit c = true) :
    rustIsWhitespace c = false ∧ c ≠ '(' ∧ c ≠ ')' ∧ c ≠ '+' ∧ c ≠ '-' ∧
      c ≠ '*' ∧ c ≠ '/' := by
  have hn : 48 ≤ c.toNat ∧ c.toNat ≤ 57 := by
    simpa [isAsciiDigit] using hd
  refine ⟨?_, ?_, ?_, ?_, ?_, ?_, ?_⟩
  · cases hb : rustIsWhitespace c with
    | false => rfl
    | true =>
      exfalso
      simp [rustIsWhitespace] at hb
      omega
  all_goals (intro heq; rw [heq] at hn; exact absurd hn (by decide))

/-- Inversion for a successful `withToken`. -/
theorem withToken_ok_inv {t : Token} {r : TokResult} {ts : List Token}
    (h : withToken t r = TokResult.ok ts) :
    ∃ l0, r = TokResult.ok l0 ∧ ts = t :: l0 := by
  cases r with
  | ok l0 =>
    simp only [withToken, TokResult.ok.injEq] at h
    exact ⟨l0, rfl, h.symm⟩
  | err e => simp [withToken] at h
  | panicked => simp [withToken] at h

/-- Pushing a non-`EOF` token preserves the "ends in exactly one `EOF`"
shape. -/
theorem eof_shape_cons {t : Token} {l0 : List Token} (ht : t ≠ Token.EOF)
    (h : ∃ pre, l0 = pre ++ [Token.EOF] ∧ Token.EOF ∉ pre) :
    ∃ pre, t :: l0 = pre ++ [Token.EOF] ∧ Token.EOF ∉ pre := by
  obtain ⟨pre, h1, h2⟩ := h
  refine ⟨t :: pre, by simp [h1], ?_⟩
  intro hmem
  rcases List.mem_cons.mp hmem with hh | hh
  · exact ht hh.symm
  · exact h2 hh

/-- Any token sequence the lexer returns is some `EOF`-free prefix followed
by a single final `EOF`. -/
theorem tokenize_eof_shape : ∀ (N : Nat) (l : List Char), l.length ≤ N →
    ∀ ts, tokenizeChars l = TokResult.ok ts →
    ∃ pre, ts = pre ++ [Token.EOF] ∧ Token.EOF ∉ pre := by
  intro N
  induction N with
  | zero =>
    intro l hlen ts h
    have : l = [] := List.length_eq_zero.mp (by omega)
    subst this
    simp only [tokenizeChars, TokResult.ok.injEq] at h
    exact ⟨[], by simp [← h], by simp⟩
  | succ N ihN =>
    intro l hlen ts h
    cases l with
    | nil =>
      simp only [tokenizeChars, TokResult.ok.injEq] at h
      exact ⟨[], by simp [← h], by simp⟩
    | cons ch cs =>
      simp only [tokenizeChars] at h
      split at h
      next hws => exact ihN cs (by simpa using hlen) ts h
      next hws =>
      split at h
      next hc =>
        obtain ⟨l0, hr, hts⟩ := withToken_ok_inv h
        subst hts
        exact eof_shape_cons (by simp) (ihN cs (by simpa using hlen) l0 hr)
      next hc1 =>
      split at h
      next hc =>
        obtain ⟨l0, hr, hts⟩ := withToken_ok_inv h
        subst hts
        exact eof_shape_cons (by simp) (ihN cs (by simpa using hlen) l0 hr)
      next hc2 =>
      split at h
      next hc =>
        obtain ⟨l0, hr, hts⟩ := withToken_ok_inv h
        subst hts
        exact eof_shape_cons (by simp) (ihN cs (by simpa using hlen) l0 hr)
      next hc3 =>
      split at h
      next hc =>
        obtain ⟨l0, hr, hts⟩ := withToken_ok_inv h
        subst hts
        exact eof_shape_cons (by simp) (ihN cs (by simpa using hlen) l0 hr)
      next hc4 =>
      split at h
      next hc =>
        obtain ⟨l0, hr, hts⟩ := withToken_ok_inv h
        subst hts
        exact eof_shape_cons (by simp) (ihN cs (by simpa using hlen) l0 hr)
      next hc5 =>
      split at h
      next hc =>
        obtain ⟨l0, hr, hts⟩ := withToken_ok_inv h
        subst hts
        exact eof_shape_cons (by simp) (ihN cs (by simpa using hlen) l0 hr)
      next hc6 =>
      split at h
      next hd =>
        split at h
        next hfit =>
          obtain ⟨l0, hr, hts⟩ := withToken_ok_inv h
          subst hts
          have hrest : (List.dropWhile isAsciiDigit (ch :: cs)).length ≤ N := by
            rw [List.dropWhile_cons_of_pos hd]
            have := (List.dropWhile_sublist (l := cs) isAsciiDigit).length_le
            simp at hlen
            omega
          exact eof_shape_cons (by simp) (ihN _ hrest l0 hr)
        next hfit => exact absurd h (by simp)
      next hd => exact absurd h (by simp)

/-- C7: whenever the tokenizer succeeds, the returned sequence ends with
exactly one `EOF` token and `EOF` occurs at no other position. -/
theorem C7_single_trailing_eof : ∀ (s : String) (ts : List Token),
    tokenizer s = TokResult.ok ts →
    ts.getLast? = some Token.EOF ∧ Token.EOF ∉ ts.dropLast := by
  intro s ts h
  obtain ⟨pre, h1, h2⟩ :=
    tokenize_eof_shape s.toList.length s.toList (Nat.le_refl _) ts h
  subst h1
  exact ⟨List.getLast?_concat pre, by simpa using h2⟩

/-- C7 witness: the invariant instantiated on the input "1". -/
theorem C7_witness :
    [Token.Number 1, Token.EOF].getLast? = some Token.EOF ∧
    Token.EOF ∉ [Token.Number 1, Token.EOF].dropLast := by
  refine C7_single_trailing_eof ("1") [Token.Number 1, Token.EOF] ?_
  simp +decide [tokenizer, tokenizeChars, withToken]

/-- Lexing a non-empty all-digit input whose value fits in `i64` yields
exactly the number token and the `EOF` terminator. -/
theorem tokenize_all_digits (l : List Char) (hne : l ≠ [])
    (hdig : ∀ c ∈ l, isAsciiDigit c = true) (hfit : natOfDigits l ≤ i64Max) :
    tokenizeChars l =
      TokResult.ok [Token.Number ((natOfDigits l : Nat) : Int), Token.EOF] := by
  cases l with
  | nil => exact absurd rfl hne
  | cons ch cs =>
    have hd : isAsciiDigit ch = true := hdig ch (by simp)
    obtain ⟨hws, hp1, hp2, hp3, hp4, hp5, hp6⟩ := digit_char_facts hd
    have htw : List.takeWhile isAsciiDigit (ch :: cs) = ch :: cs :=
      List.takeWhile_eq_self_iff.mpr hdig
    have hdw : List.dropWhile isAsciiDigit (ch :: cs) = [] :=
      List.dropWhile_eq_nil_iff.mpr hdig
    simp only [tokenizeChars, hws, hp1, hp2, hp3, hp4, hp5, hp6, hd, htw, hdw]
    simp [tokenizeChars, withToken, hfit]

/-- Lexing an all-whitespace input yields exactly the `EOF` terminator. -/
theorem tokenize_all_whitespace (l : List Char)
    (h : ∀ c ∈ l, rustIsWhitespace c = true) :
    tokenizeChars l = TokResult.ok [Token.EOF] := by
  induction l with
  | nil => simp [tokenizeChars]
  | cons ch cs ih =>
    have hw : rustIsWhitespace ch = true := h ch (by simp)
    simp only [tokenizeChars, hw, if_pos]
    exact ih (fun c hc => h c (by simp [hc]))

/-- C6: a non-empty all-digit input within `i64` range lexes to exactly
`[Number value, EOF]`, and an all-whitespace input lexes to exactly
`[EOF]`. -/
theorem C6_digit_and_whitespace_inputs :
    (∀ s : String, s.toList ≠ [] → (∀ c ∈ s.toList, isAsciiDigit c = true) →
      natOfDigits s.toList ≤ i64Max →
      tokenizer s =
        TokResult.ok [Token.Number ((natOfDigits s.toList : Nat) : Int), Token.EOF]) ∧
    (∀ s : String, (∀ c ∈ s.toList, rustIsWhitespace c = true) →
      tokenizer s = TokResult.ok [Token.EOF]) :=
  ⟨fun s h1 h2 h3 => tokenize_all_digits s.toList h1 h2 h3,
    fun s h1 => tokenize_all_whitespace s.toList h1⟩

/-- C6 witness: the two behaviours at the concrete inputs "42" and a
two-character whitespace string. -/
theorem C6_witness :
    tokenizer ("42") = TokResult.ok [Token.Number 42, Token.EOF] ∧
    tokenizer (" ") = TokResult.ok [Token.EOF] := by
  constructor
  · have h := C6_digit_and_whitespace_inputs.1 ("42") (by decide) (by decide) (by decide)
    have hv : ((natOfDigits ("42").toList : Nat) : Int) = 42 := by decide
    rw [hv] at h
    exact h
  · exact C6_digit_and_whitespace_inputs.2 (" ") (by decide)

/-- A character outside the whitespace, symbol and digit sets: exactly the
ones that hit the catch-all arm of the lexer. -/
def isUnrecognized (c : Char) : Bool := !recognizedChar c


/-- An ASCII digit is never a whitespace character. -/
theorem not_digit_of_whitespace {c : Char} (h : rustIsWhitespace c = true) :
    isAsciiDigit c = false := by
  cases hb : isAsciiDigit c with
  | false => rfl
  | true => simp [(digit_char_facts hb).1] at h

/-- Fueled scan for the overflow-free condition of the amended C5: walk the
input in the lexer's scan order, check each maximal digit run against
`i64::MAX`, and stop successfully at the first unrecognized character.  Each
step consumes at least one character, so fuel `l.length` always suffices
(`digitRunsOkF_fuel`). -/
def digitRunsOkF : Nat → List Char → Bool
  | 0, _ => true
  | _ + 1, [] => true
  | fuel + 1, ch :: cs =>
    if isAsciiDigit ch then
      if natOfDigits (List.takeWhile isAsciiDigit (ch :: cs)) ≤ i64Max then
        digitRunsOkF fuel (List.dropWhile isAsciiDigit (ch :: cs))
      else false
    else if isUnrecognized ch then true
    else digitRunsOkF fuel cs

/-- The overflow-free condition of the amended C5: every maximal digit run
the scanner meets strictly before the first unrecognized character has a
value of at most `i64::MAX`. -/
def digitRunsOk (l : List Char) : Bool := digitRunsOkF l.length l

/-- The fueled scan is fuel-independent once the fuel covers the length. -/
theorem digitRunsOkF_fuel : ∀ (fuel : Nat) (l : List Char) (fuel2 : Nat),
    l.length ≤ fuel → l.length ≤ fuel2 →
    digitRunsOkF fuel l = digitRunsOkF fuel2 l := by
  intro fuel
  induction fuel with
  | zero =>
    intro l fuel2 h1 h2
    have : l = [] := List.length_eq_zero.mp (by omega)
    subst this
    cases fuel2 <;> simp [digitRunsOkF]
  | succ f ih =>
    intro l fuel2 h1 h2
    cases l with
    | nil => cases fuel2 <;> simp [digitRunsOkF]
    | cons ch cs =>
      cases fuel2 with
      | zero => exact absurd h2 (by simp)
      | succ f2 =>
        simp only [digitRunsOkF]
        by_cases hd : isAsciiDigit ch = true
        · by_cases hfit : natOfDigits (List.takeWhile isAsciiDigit (ch :: cs)) ≤ i64Max
          · simp only [hd, hfit, if_true]
            have hlen : (List.dropWhile isAsciiDigit (ch :: cs)).length ≤ cs.length := by
              rw [List.dropWhile_cons_of_pos hd]
              exact (List.dropWhile_sublist (l := cs) isAsciiDigit).length_le
            have hcs : cs.length ≤ f := by simpa using h1
            have hcs2 : cs.length ≤ f2 := by simpa using h2
            exact ih _ f2 (by omega) (by omega)
          · have hfit2 : ¬ natOfDigits (ch :: List.takeWhile isAsciiDigit cs) ≤ i64Max := by
              rw [← List.takeWhile_cons_of_pos hd]
              exact hfit
            simp [hd, hfit2]
        · by_cases hu : isUnrecognized ch = true
          · simp [hd, hu]
          · simp only [hd, hu, if_false]
            have hcs : cs.length ≤ f := by simpa using h1
            have hcs2 : cs.length ≤ f2 := by simpa using h2
            exact ih cs f2 hcs hcs2

/-- One-step unfolding of `digitRunsOk` on a cons cell. -/
theorem digitRunsOk_cons (ch : Char) (cs : List Char) :
    digitRunsOk (ch :: cs) =
      if isAsciiDigit ch then
        if natOfDigits (List.takeWhile isAsciiDigit (ch :: cs)) ≤ i64Max then
          digitRunsOk (List.dropWhile isAsciiDigit (ch :: cs))
        else false
      else if isUnrecognized ch then true
      else digitRunsOk cs := by
  show digitRunsOkF (ch :: cs).length (ch :: cs) = _
  simp only [List.length_cons, digitRunsOkF]
  by_cases hd : isAsciiDigit ch = true
  · by_cases hfit : natOfDigits (List.takeWhile isAsciiDigit (ch :: cs)) ≤ i64Max
    · simp only [hd, hfit, if_true]
      have hlen : (List.dropWhile isAsciiDigit (ch :: cs)).length ≤ cs.length := by
        rw [List.dropWhile_cons_of_pos hd]
        exact (List.dropWhile_sublist (l := cs) isAsciiDigit).length_le
      exact digitRunsOkF_fuel cs.length _ _ hlen (Nat.le_refl _)
    · have hfit2 : ¬ natOfDigits (ch :: List.takeWhile isAsciiDigit cs) ≤ i64Max := by
        rw [← List.takeWhile_cons_of_pos hd]
        exact hfit
      simp [hd, hfit2]
  · by_cases hu : isUnrecognized ch = true
    · simp [hd, hu]
    · simp only [hd, hu, if_false]
      rfl

/-- On any input containing an unrecognized character, the lexer reports the
first such character (in scan order, which is textual order) whenever all
digit runs scanned before it fit in `i64`, and panics exactly when one of
those digit runs overflows; it never returns a token list. -/
theorem tokenize_first_unrecognized : ∀ (N : Nat) (l : List Char) (c : Char),
    l.length ≤ N → List.find? isUnrecognized l = some c →
    (digitRunsOk l = true →
      tokenizeChars l =
        TokResult.err (SyntaxError.mk ("unrecognized character " ++ String.singleton c))) ∧
    (digitRunsOk l = false → tokenizeChars l = TokResult.panicked) := by
  intro N
  induction N with
  | zero =>
    intro l c hlen hfind
    have : l = [] := List.length_eq_zero.mp (by omega)
    subst this
    simp at hfind
  | succ N ihN =>
    intro l c hlen hfind
    cases l with
    | nil => simp at hfind
    | cons ch cs =>
      have hlen2 : cs.length ≤ N := by simpa using hlen
      by_cases hws : rustIsWhitespace ch = true
      · have hnd : isAsciiDigit ch = false := not_digit_of_whitespace hws
        have hnu : isUnrecognized ch = false := by
          simp [isUnrecognized, recognizedChar, hws]
        have htk : tokenizeChars (ch :: cs) = tokenizeChars cs := by
          simp [tokenizeChars, hws]
        have hdr : digitRunsOk (ch :: cs) = digitRunsOk cs := by
          rw [digitRunsOk_cons, if_neg (by simp [hnd]), if_neg (by simp [hnu])]
        have hfind2 : List.find? isUnrecognized cs = some c := by
          rw [List.find?_cons_of_neg cs (by simp [hnu])] at hfind
          exact hfind
        rw [htk, hdr]
        exact ihN cs c hlen2 hfind2
      · by_cases hc1 : ch = '('
        · subst hc1
          have htk : tokenizeChars ('(' :: cs) =
              withToken Token.LeftParen (tokenizeChars cs) := by
            simp +decide [tokenizeChars]
          have hdr : digitRunsOk ('(' :: cs) = digitRunsOk cs := by
            rw [digitRunsOk_cons, if_neg (by decide), if_neg (by decide)]
          have hfind2 : List.find? isUnrecognized cs = some c := by
            rw [List.find?_cons_of_neg cs (by decide)] at hfind
            exact hfind
          rw [htk, hdr]
          exact ⟨fun hok => by rw [(ihN cs c hlen2 hfind2).1 hok]; rfl,
            fun hbad => by rw [(ihN cs c hlen2 hfind2).2 hbad]; rfl⟩
        · by_cases hc2 : ch = ')'
          · subst hc2
            have htk : tokenizeChars (')' :: cs) =
                withToken Token.RightParen (tokenizeChars cs) := by
              simp +decide [tokenizeChars]
            have hdr : digitRunsOk (')' :: cs) = digitRunsOk cs := by
              rw [digitRunsOk_cons, if_neg (by decide), if_neg (by decide)]
            have hfind2 : List.find? isUnrecognized cs = some c := by
              rw [List.find?_cons_of_neg cs (by decide)] at hfind
              exact hfind
            rw [htk, hdr]
            exact ⟨fun hok => by rw [(ihN cs c hlen2 hfind2).1 hok]; rfl,
              fun hbad => by rw [(ihN cs c hlen2 hfind2).2 hbad]; rfl⟩
          · by_cases hc3 : ch = '+'
            · subst hc3
              have htk : tokenizeChars ('+' :: cs) =
                  withToken Token.Plus (tokenizeChars cs) := by
                simp +decide [tokenizeChars]
              have hdr : digitRunsOk ('+' :: cs) = digitRunsOk cs := by
                rw [digitRunsOk_cons, if_neg (by decide), if_neg (by decide)]
              have hfind2 : List.find? isUnrecognized cs = some c := by
                rw [List.find?_cons_of_neg cs (by decide)] at hfind
                exact hfind
              rw [htk, hdr]
              exact ⟨fun hok => by rw [(ihN cs c hlen2 hfind2).1 hok]; rfl,
                fun hbad => by rw [(ihN cs c hlen2 hfind2).2 hbad]; rfl⟩
            · by_cases hc4 : ch = '-'
              · subst hc4
                have htk : tokenizeChars ('-' :: cs) =
                    withToken Token.Dash (tokenizeChars cs) := by
                  simp +decide [tokenizeChars]
                have hdr : digitRunsOk ('-' :: cs) = digitRunsOk cs := by
                  rw [digitRunsOk_cons, if_neg (by decide), if_neg (by decide)]
                have hfind2 : List.find? isUnrecognized cs = some c := by
                  rw [List.find?_cons_of_neg cs (by decide)] at hfind
                  exact hfind
                rw [htk, hdr]
                exact ⟨fun hok => by rw [(ihN cs c hlen2 hfind2).1 hok]; rfl,
                  fun hbad => by rw [(ihN cs c hlen2 hfind2).2 hbad]; rfl⟩
              · by_cases hc5 : ch = '*'
                · subst hc5
                  have htk : tokenizeChars ('*' :: cs) =
                      withToken Token.Star (tokenizeChars cs) := by
                    simp +decide [tokenizeChars]
                  have hdr : digitRunsOk ('*' :: cs) = digitRunsOk cs := by
                    rw [digitRunsOk_cons, if_neg (by decide), if_neg (by decide)]
                  have hfind2 : List.find? isUnrecognized cs = some c := by
                    rw [List.find?_cons_of_neg cs (by decide)] at hfind
                    exact hfind
                  rw [htk, hdr]
                  exact ⟨fun hok => by rw [(ihN cs c hlen2 hfind2).1 hok]; rfl,
                    fun hbad => by rw [(ihN cs c hlen2 hfind2).2 hbad]; rfl⟩
                · by_cases hc6 : ch = '/'
                  · subst hc6
                    have htk : tokenizeChars ('/' :: cs) =
                        withToken Token.Slash (tokenizeChars cs) := by
                      simp +decide [tokenizeChars]
                    have hdr : digitRunsOk ('/' :: cs) = digitRunsOk cs := by
                      rw [digitRunsOk_cons, if_neg (by decide), if_neg (by decide)]
                    have hfind2 : List.find? isUnrecognized cs = some c := by
                      rw [List.find?_cons_of_neg cs (by decide)] at hfind
                      exact hfind
                    rw [htk, hdr]
                    exact ⟨fun hok => by rw [(ihN cs c hlen2 hfind2).1 hok]; rfl,
                      fun hbad => by rw [(ihN cs c hlen2 hfind2).2 hbad]; rfl⟩
                  · by_cases hd : isAsciiDigit ch = true
                    · have hpre : List.find? isUnrecognized
                          (List.takeWhile isAsciiDigit (ch :: cs)) = none := by
                        rw [List.find?_eq_none]
                        intro x hx
                        have hdx : isAsciiDigit x = true := List.mem_takeWhile_imp hx
                        simp [isUnrecognized, recognizedChar, hdx]
                      have hfind2 : List.find? isUnrecognized
                          (List.dropWhile isAsciiDigit (ch :: cs)) = some c := by
                        have hsplit := List.takeWhile_append_dropWhile isAsciiDigit (ch :: cs)
                        rw [← hsplit, List.find?_append, hpre] at hfind
                        simpa using hfind
                      have hlen3 : (List.dropWhile isAsciiDigit (ch :: cs)).length ≤ N := by
                        rw [List.dropWhile_cons_of_pos hd]
                        have := (List.dropWhile_sublist (l := cs) isAsciiDigit).length_le
                        omega
                      by_cases hfit :
                          natOfDigits (List.takeWhile isAsciiDigit (ch :: cs)) ≤ i64Max
                      · have hfit2 : natOfDigits (ch :: List.takeWhile isAsciiDigit cs) ≤ i64Max := by
                          rw [← List.takeWhile_cons_of_pos hd]
                          exact hfit
                        have htk : tokenizeChars (ch :: cs) =
                            withToken
                              (Token.Number
                                ((natOfDigits (List.takeWhile isAsciiDigit (ch :: cs)) : Nat) : Int))
                              (tokenizeChars (List.dropWhile isAsciiDigit (ch :: cs))) := by
                          simp [tokenizeChars, hws, hc1, hc2, hc3, hc4, hc5, hc6, hd, hfit2]
                        have hdr : digitRunsOk (ch :: cs) =
                            digitRunsOk (List.dropWhile isAsciiDigit (ch :: cs)) := by
                          rw [digitRunsOk_cons, if_pos hd, if_pos hfit]
                        rw [htk, hdr]
                        exact ⟨fun hok => by rw [(ihN _ c hlen3 hfind2).1 hok]; rfl,
                          fun hbad => by rw [(ihN _ c hlen3 hfind2).2 hbad]; rfl⟩
                      · have hfit2 : ¬ natOfDigits (ch :: List.takeWhile isAsciiDigit cs) ≤ i64Max := by
                          rw [← List.takeWhile_cons_of_pos hd]
                          exact hfit
                        have htk : tokenizeChars (ch :: cs) = TokResult.panicked := by
                          simp [tokenizeChars, hws, hc1, hc2, hc3, hc4, hc5, hc6, hd, hfit2]
                        have hdr : digitRunsOk (ch :: cs) = false := by
                          rw [digitRunsOk_cons, if_pos hd, if_neg hfit]
                        rw [htk, hdr]
                        exact ⟨fun hok => absurd hok (by simp), fun _ => rfl⟩
                    · have hws2 : rustIsWhitespace ch = false := Bool.eq_false_iff.mpr hws
                      have hd2 : isAsciiDigit ch = false := Bool.eq_false_iff.mpr hd
                      have hrec : recognizedChar ch = false := by
                        simp [recognizedChar, hws2, hd2, hc1, hc2, hc3, hc4, hc5, hc6]
                      have hnu : isUnrecognized ch = true := by
                        simp [isUnrecognized, hrec]
                      have hch : ch = c := by
                        rw [List.find?_cons_of_pos cs (by simp [hnu])] at hfind
                        simpa using hfind
                      have htk : tokenizeChars (ch :: cs) =
                          TokResult.err (SyntaxError.mk
                            ("unrecognized character " ++ String.singleton ch)) := by
                        simp [tokenizeChars, hws, hc1, hc2, hc3, hc4, hc5, hc6, hd]
                      have hdr : digitRunsOk (ch :: cs) = true := by
                        rw [digitRunsOk_cons, if_neg (by simp [hd2]), if_pos hnu]
                      rw [htk, hdr, hch]
                      exact ⟨fun _ => rfl, fun hbad => absurd hbad (by simp)⟩

/-- C5 (amended): for every input containing a character outside digits,
whitespace and the six symbols, the tokenizer never returns a token list: it
returns a `SyntaxError` naming the first such offending character whenever
every digit run scanned before that character fits in `i64`, and panics
exactly when one of those digit runs overflows (the defect recorded at
C3). -/
theorem C5_unrecognized_char_reported : ∀ (s : String) (c : Char),
    List.find? isUnrecognized s.toList = some c →
    (digitRunsOk s.toList = true →
      tokenizer s =
        TokResult.err (SyntaxError.mk ("unrecognized character " ++ String.singleton c))) ∧
    (digitRunsOk s.toList = false → tokenizer s = TokResult.panicked) :=
  fun s c h =>
    tokenize_first_unrecognized s.toList.length s.toList c (Nat.le_refl _) h

/-- C5 witness: both cases of the amended claim at concrete inputs — the
error naming `a` on "12a", whose digit run fits, and the panic on
"9223372036854775808a", whose digit run overflows. -/
theorem C5_witness :
    tokenizer ("12a") = TokResult.err (SyntaxError.mk ("unrecognized character a")) ∧
    tokenizer ("9223372036854775808a") = TokResult.panicked := by
  constructor
  · have h := (C5_unrecognized_char_reported ("12a") 'a' (by decide)).1 (by decide)
    rw [show ("unrecognized character " ++ String.singleton 'a') =
      ("unrecognized character a") from by decide] at h
    exact h
  · exact (C5_unrecognized_char_reported ("9223372036854775808a") 'a' (by decide)).2
      (by decide)
